import Mathlib

/-!
Shallow embedding of the graph-based image segmentation core of the `tvid`
repository (`src/gbis.rs` and `src/gbis/pixel_grid.rs`).

Modelling conventions:
* `f32` values are modelled as `Option ℚ`: `some q` is an ordinary float,
  `none` is NaN.  The scale parameter `k` is modelled as `ℚ` (the spec
  restricts it to ordinary positive floats).
* Rust panics/aborts are modelled by `Option`-valued functions returning
  `none`.
* `Vec<ComponentSlot>` is modelled as `List ComponentSlot`, with `List.set`
  for in-place updates (in-bounds in all reachable states).
* The union-find lookup loop `get_component` is modelled with explicit fuel;
  fuel exhaustion returns `none` (the Rust loop would diverge on a cyclic
  forest, which is proved unreachable).
* `slice::sort_by` is a stable comparison sort whose comparator
  (`partial_cmp(..).expect(..)`) panics when it is handed a NaN.  It is
  modelled as a stable insertion sort propagating `none` whenever a
  comparison involves a NaN weight.  Like the real sort, it performs no
  comparison at all on lists of length ≤ 1, and on lists of length ≥ 2 every
  element takes part in at least one comparison, so a NaN aborts exactly
  when the list has at least two edges.
-/

namespace Tvid

/-- `Component { int_diff, node_count }` from `gbis.rs`. -/
structure Component where
  int_diff : ℚ
  node_count : ℕ
deriving DecidableEq, Repr

/-- `ComponentSlot`: a slot owning a component (`Here`) or forwarding to
another index (`There`). -/
inductive ComponentSlot where
  | Here (c : Component)
  | There (idx : ℕ)
deriving DecidableEq, Repr

/-- `PixelCoordinate { x, y }`. -/
structure PixelCoordinate where
  x : ℕ
  y : ℕ
deriving DecidableEq, Repr

/-- An edge reference after `graph.to_index` has been applied to its two
endpoints: dense source/target node indices plus the `f32` weight
(`none` = NaN). -/
structure EdgeData where
  source : ℕ
  target : ℕ
  weight : Option ℚ
deriving DecidableEq, Repr

/-- `Segmentation { node_components, components }`. -/
structure Segmentation where
  node_components : List ℕ
  components : List Component
deriving DecidableEq, Repr

/-- The inner lookup `get_component`: follow `There` forwards until a `Here`
slot is found, returning the root index and its component.  `fuel` bounds the
number of steps; all reachable forests are proved to need at most
`comps.length` steps. -/
def get_component (comps : List ComponentSlot) : ℕ → ℕ → Option (ℕ × Component)
  | _, 0 => none
  | idx, fuel + 1 =>
    match comps[idx]? with
    | some (.Here c) => some (idx, c)
    | some (.There j) => get_component comps j fuel
    | none => none

/-- Total-order comparison on the non-NaN floats (modelled by `ℚ`). -/
def cmpQ (x y : ℚ) : Ordering :=
  if x < y then .lt else if x = y then .eq else .gt

/-- `a.weight().partial_cmp(b.weight())`: defined only when neither side is
NaN. -/
def cmpWeight (a b : Option ℚ) : Option Ordering :=
  match a, b with
  | some x, some y => some (cmpQ x y)
  | _, _ => none

/-- Insert an edge into an already-sorted accumulator, after all edges of
less-or-equal weight (the inserted edge is the later one in enumeration
order, so this is the stable position).  Any comparison involving NaN
aborts. -/
def insertEdge (e : EdgeData) : List EdgeData → Option (List EdgeData)
  | [] => some [e]
  | f :: fs =>
    match cmpWeight e.weight f.weight with
    | none => none
    | some .lt => some (e :: f :: fs)
    | some _ => (insertEdge e fs).map (f :: ·)

/-- Left fold of `insertEdge` over the enumeration order. -/
def sortInto (acc : List EdgeData) : List EdgeData → Option (List EdgeData)
  | [] => some acc
  | e :: es =>
    match insertEdge e acc with
    | none => none
    | some acc2 => sortInto acc2 es

/-- Model of `queue.sort_by(|a, b| a.weight().partial_cmp(b.weight()).expect(..))`:
a stable sort by weight that aborts iff a comparison hits a NaN. -/
def sortEdges (es : List EdgeData) : Option (List EdgeData) :=
  sortInto [] es

/-- `*edge.weight() > mint` on `f32`: false when the weight is NaN. -/
def weightGt (w : Option ℚ) (m : ℚ) : Bool :=
  match w with
  | some q => decide (q > m)
  | none => false

/-- `c1.int_diff.max(c2.int_diff).max(*edge.weight())` on `f32`:
`f32::max` ignores a NaN argument, so a NaN weight contributes nothing. -/
def newIntDiff (c1 c2 : Component) (w : Option ℚ) : ℚ :=
  match w with
  | some q => max (max c1.int_diff c2.int_diff) q
  | none => max c1.int_diff c2.int_diff

/-- The merged component stored at `root(u)`'s slot. -/
def mergedComponent (c1 c2 : Component) (w : Option ℚ) : Component :=
  { int_diff := newIntDiff c1 c2 w, node_count := c1.node_count + c2.node_count }

/-- The forest after merging `c2_idx` into `c1_idx`. -/
def mergeInto (comps : List ComponentSlot) (c1_idx c2_idx : ℕ)
    (nc : Component) : List ComponentSlot :=
  (comps.set c1_idx (.Here nc)).set c2_idx (.There c1_idx)

/-- The body of the merge loop for a single edge, straight from
`gbis.rs` lines 79–109. -/
def mergeStep (k : ℚ) (comps : List ComponentSlot) (e : EdgeData) :
    Option (List ComponentSlot) :=
  match get_component comps e.source comps.length with
  | none => none
  | some (c1_idx, c1) =>
    match get_component comps e.target comps.length with
    | none => none
    | some (c2_idx, c2) =>
      if c1_idx = c2_idx then
        some comps
      else
        let mint := min (c1.int_diff + k / (c1.node_count : ℚ))
                        (c2.int_diff + k / (c2.node_count : ℚ))
        if weightGt e.weight mint then
          some comps
        else
          some (mergeInto comps c1_idx c2_idx (mergedComponent c1 c2 e.weight))

/-- The whole merge loop (`for edge in queue { .. }`). -/
def runMerges (k : ℚ) (comps : List ComponentSlot) (edges : List EdgeData) :
    Option (List ComponentSlot) :=
  match edges with
  | [] => some comps
  | e :: es =>
    match mergeStep k comps e with
    | none => none
    | some comps2 => runMerges k comps2 es

/-- Whether a slot is a root. -/
def isHere (s : ComponentSlot) : Bool :=
  match s with
  | .Here _ => true
  | .There _ => false

/-- The payload of a root slot. -/
def hereComponent (s : ComponentSlot) : Option Component :=
  match s with
  | .Here c => some c
  | .There _ => none

/-- The surviving components in ascending slot order
(`filter_map` over the enumerated slots). -/
def out_components (comps : List ComponentSlot) : List Component :=
  comps.filterMap hereComponent

/-- Number of `Here` slots strictly before index `i`: this is exactly the
dense output id that the enumerate/filter/enumerate pass of `gbis.rs`
assigns to the root at slot `i`. -/
def hereCountBefore (comps : List ComponentSlot) (i : ℕ) : ℕ :=
  (comps.take i).countP isHere

/-- `component_map`: dense output id of a root slot (`None` for forwarded
slots, whose `.unwrap()` would panic). -/
def component_map (comps : List ComponentSlot) (i : ℕ) : Option ℕ :=
  match comps[i]? with
  | some (.Here _) => some (hereCountBefore comps i)
  | _ => none

/-- The initial forest: one singleton root `Component { 0.0, 1 }` per node. -/
def initComponents (n : ℕ) : List ComponentSlot :=
  List.replicate n (.Here { int_diff := 0, node_count := 1 })

/-- `segment(graph, k)`, with the graph already presented as its node bound
and its enumerated edge list (endpoint node indices via `to_index`).
Returns `none` when the Rust code would panic (NaN met during sorting, an
out-of-bounds slot access, or a diverging lookup). -/
def segment (n : ℕ) (edges : List EdgeData) (k : ℚ) : Option Segmentation :=
  match sortEdges edges with
  | none => none
  | some queue =>
    match runMerges k (initComponents n) queue with
    | none => none
    | some comps =>
      match (List.range n).mapM (fun node_idx =>
          match get_component comps node_idx comps.length with
          | none => none
          | some (r, _) => component_map comps r) with
      | none => none
      | some node_components =>
        some { node_components := node_components
               components := out_components comps }

/-! ### Derived notions used to state the invariants -/

/-- Number of forwarding slots. -/
def thereCount (comps : List ComponentSlot) : ℕ :=
  comps.countP fun s => !isHere s

/-- The root index a node currently resolves to (with the canonical fuel). -/
def rootIdx (comps : List ComponentSlot) (i : ℕ) : Option ℕ :=
  (get_component comps i comps.length).map Prod.fst

/-- The dense output label of a node (0 when lookup fails; lookups are
proved to succeed in all reachable states). -/
def nodeLabel (comps : List ComponentSlot) (v : ℕ) : ℕ :=
  match get_component comps v comps.length with
  | some (r, _) => hereCountBefore comps r
  | none => 0

/-- `RootIn comps i r t`: following forward references from `i` reaches the
root slot `r` after exactly `t` `There` steps. -/
inductive RootIn (comps : List ComponentSlot) : ℕ → ℕ → ℕ → Prop where
  | here {i : ℕ} {c : Component} :
      comps[i]? = some (.Here c) → RootIn comps i i 0
  | there {i j r t : ℕ} :
      comps[i]? = some (.There j) → RootIn comps j r t →
      RootIn comps i r (t + 1)

/-- The loop invariant of the merge loop: the forest has `n` slots, every
node's forward chain reaches a root in at most `thereCount` steps, and every
root's `node_count` is the number of nodes resolving to it. -/
structure SegInv (n : ℕ) (comps : List ComponentSlot) : Prop where
  len : comps.length = n
  reach : ∀ i < n, ∃ r t, RootIn comps i r t ∧ t ≤ thereCount comps
  count : ∀ r c, comps[r]? = some (.Here c) →
    c.node_count =
      (List.range n).countP fun i => decide (rootIdx comps i = some r)

/-- Weight order between edges whose weights are both ordinary floats. -/
def wle (e f : EdgeData) : Prop :=
  ∃ a b, e.weight = some a ∧ f.weight = some b ∧ a ≤ b

/-! ## Pixel grid adapter (`gbis/pixel_grid.rs`) -/

/-- The four neighbor directions. -/
inductive Neighbor where
  | Down
  | Right
  | DownRight
  | DownLeft
deriving DecidableEq, Repr

/-- `Neighbor::apply`. -/
def Neighbor.apply : Neighbor → PixelCoordinate → PixelCoordinate
  | .Down, c => { x := c.x, y := c.y + 1 }
  | .Right, c => { x := c.x + 1, y := c.y }
  | .DownRight, c => { x := c.x + 1, y := c.y + 1 }
  | .DownLeft, c => { x := c.x - 1, y := c.y + 1 }

/-- `Edge { base, neighbor }`. -/
structure PEdge where
  base : PixelCoordinate
  neighbor : Neighbor
deriving DecidableEq, Repr

/-- `NodeIndexable::to_index`: row-major dense index. -/
def to_index (W : ℕ) (p : PixelCoordinate) : ℕ :=
  p.y * W + p.x

/-- `NodeIndexable::from_index`. -/
def from_index (W : ℕ) (i : ℕ) : PixelCoordinate :=
  { x := i % W, y := i / W }

/-- `NodeIndexable::node_bound`. -/
def node_bound (W H : ℕ) : ℕ := W * H

/-- The edges a single pixel contributes, in source order:
Right, Down, DownRight, DownLeft, each under its bounds guard. -/
def pixelEdgesAt (W H : ℕ) (p : PixelCoordinate) : List PEdge :=
  (if p.x < W - 1 then [{ base := p, neighbor := .Right }] else []) ++
  (if p.y < H - 1 then [{ base := p, neighbor := .Down }] else []) ++
  (if p.x < W - 1 ∧ p.y < H - 1 then [{ base := p, neighbor := .DownRight }] else []) ++
  (if 0 < p.x ∧ p.y < H - 1 then [{ base := p, neighbor := .DownLeft }] else [])

/-- `edge_references()`: pixels visited in row-major order, each contributing
its guarded edges. -/
def pixelEdges (W H : ℕ) : List PEdge :=
  (List.range H).flatMap fun y =>
    (List.range W).flatMap fun x =>
      pixelEdgesAt W H { x := x, y := y }

/-- `u8::abs_diff`. -/
def absDiff (a b : ℕ) : ℕ :=
  max a b - min a b

/-- `EdgeRef::new`'s weight: `abs_diff` of the two 8-bit intensities over
255.  Never NaN by construction. -/
def pixelWeight (img : ℕ → ℕ → ℕ) (e : PEdge) : Option ℚ :=
  let t := e.neighbor.apply e.base
  some ((absDiff (img e.base.x e.base.y) (img t.x t.y) : ℚ) / 255)

/-- The pixel-grid edge list as the engine sees it: `to_index` applied to
both endpoints, weight from `EdgeRef::new`. -/
def pixelGraphEdges (W H : ℕ) (img : ℕ → ℕ → ℕ) : List EdgeData :=
  (pixelEdges W H).map fun e =>
    { source := to_index W e.base
      target := to_index W (e.neighbor.apply e.base)
      weight := pixelWeight img e }

/-- The regrouping loop of `gbis`: push each node's coordinate onto the list
indexed by its component id. -/
def regroupAux (W : ℕ) (acc : List (List PixelCoordinate)) :
    List (ℕ × ℕ) → List (List PixelCoordinate)
  | [] => acc
  | (i, c) :: rest =>
    regroupAux W (acc.set c (acc.getD c [] ++ [from_index W i])) rest

/-- `let mut components = vec![Vec::new(); m]; for (i, c) in … { … push … }`. -/
def regroup (W m : ℕ) (node_components : List ℕ) : List (List PixelCoordinate) :=
  regroupAux W (List.replicate m []) (node_components.enum)

/-- The `gbis` pipeline on the blurred image.  The gaussian blur is an
external collaborator that preserves the image dimensions, so `img` here
stands for the already-blurred intensity function. -/
def gbis (W H : ℕ) (img : ℕ → ℕ → ℕ) (k : ℚ) :
    Option (List (List PixelCoordinate)) :=
  match segment (node_bound W H) (pixelGraphEdges W H img) k with
  | none => none
  | some seg => some (regroup W seg.components.length seg.node_components)

/-! ## Lemmas about the comparator and the stable sort -/

theorem cmpQ_eq_lt {x y : ℚ} : cmpQ x y = .lt ↔ x < y := by
  unfold cmpQ
  split
  · simp [*]
  · split <;> simp_all

theorem cmpQ_eq_eq {x y : ℚ} : cmpQ x y = .eq ↔ x = y := by
  unfold cmpQ
  split
  · constructor
    · intro h; cases h
    · intro h; subst h; simp_all
  · split <;> simp_all

theorem cmpQ_eq_gt {x y : ℚ} : cmpQ x y = .gt ↔ y < x := by
  unfold cmpQ
  split
  · constructor
    · intro h; cases h
    · intro h; exact absurd (lt_trans h (by assumption)) (lt_irrefl y)
  · split
    · simp_all
    · constructor
      · intro _; rcases lt_trichotomy x y with h | h | h <;> simp_all
      · intro _; rfl

theorem cmpWeight_some {a b : ℚ} :
    cmpWeight (some a) (some b) = some (cmpQ a b) := rfl

theorem cmpWeight_eq_some {x y : Option ℚ} {o : Ordering}
    (h : cmpWeight x y = some o) :
    ∃ a b, x = some a ∧ y = some b ∧ cmpQ a b = o := by
  cases x
  · cases y
    · simp [cmpWeight] at h
    · simp [cmpWeight] at h
  · cases y
    · simp [cmpWeight] at h
    · simp [cmpWeight] at h ⊢
      exact h

/-- Structure of a successful insertion: the accumulator splits as
`l1 ++ l2`, the new edge lands between them, everything in `l1` weighs at
most the new edge, and the head of `l2` weighs strictly more. -/
theorem insertEdge_some {e : EdgeData} :
    ∀ {acc l : List EdgeData}, insertEdge e acc = some l →
    ∃ l1 l2, acc = l1 ++ l2 ∧ l = l1 ++ e :: l2 ∧
      (∀ f ∈ l1, ∃ a b, e.weight = some a ∧ f.weight = some b ∧ b ≤ a) ∧
      (∀ g, l2.head? = some g →
        ∃ a b, e.weight = some a ∧ g.weight = some b ∧ a < b) := by
  intro acc
  induction acc with
  | nil =>
    intro l h
    simp only [insertEdge, Option.some.injEq] at h
    exact ⟨[], [], by simp, by simp [h.symm], by simp, by simp⟩
  | cons f fs ih =>
    intro l h
    rw [insertEdge] at h
    cases hcw : cmpWeight e.weight f.weight with
    | none => rw [hcw] at h; cases h
    | some o =>
      rw [hcw] at h
      obtain ⟨a, b, ha, hb, hab⟩ := cmpWeight_eq_some hcw
      cases o with
      | lt =>
        simp only [Option.some.injEq] at h
        refine ⟨[], f :: fs, by simp, by simp [h.symm], by simp, ?_⟩
        intro g hg
        simp only [List.head?_cons, Option.some.injEq] at hg
        exact ⟨a, b, ha, hg ▸ hb, cmpQ_eq_lt.mp hab⟩
      | eq =>
        simp only [Option.map_eq_some'] at h
        obtain ⟨l', hl', rfl⟩ := h
        obtain ⟨l1, l2, h1, h2, h3, h4⟩ := ih hl'
        refine ⟨f :: l1, l2, by simp [h1], by simp [h2], ?_, h4⟩
        intro x hx
        rcases List.mem_cons.mp hx with rfl | hx
        · exact ⟨a, b, ha, hb, le_of_eq (cmpQ_eq_eq.mp hab).symm⟩
        · exact h3 x hx
      | gt =>
        simp only [Option.map_eq_some'] at h
        obtain ⟨l', hl', rfl⟩ := h
        obtain ⟨l1, l2, h1, h2, h3, h4⟩ := ih hl'
        refine ⟨f :: l1, l2, by simp [h1], by simp [h2], ?_, h4⟩
        intro x hx
        rcases List.mem_cons.mp hx with rfl | hx
        · exact ⟨a, b, ha, hb, le_of_lt (cmpQ_eq_gt.mp hab)⟩
        · exact h3 x hx

theorem insertEdge_perm {e : EdgeData} {acc l : List EdgeData}
    (h : insertEdge e acc = some l) : l.Perm (e :: acc) := by
  obtain ⟨l1, l2, h1, h2, -, -⟩ := insertEdge_some h
  subst h1 h2
  exact List.perm_middle

theorem insertEdge_isSome {e : EdgeData} {q : ℚ} (he : e.weight = some q)
    {acc : List EdgeData} (hacc : ∀ f ∈ acc, ∃ b, f.weight = some b) :
    ∃ l, insertEdge e acc = some l := by
  induction acc with
  | nil => exact ⟨[e], rfl⟩
  | cons f fs ih =>
    obtain ⟨b, hb⟩ := hacc f (by simp)
    have step : cmpWeight e.weight f.weight = some (cmpQ q b) := by
      rw [he, hb]; rfl
    rw [insertEdge, step]
    cases cmpQ q b with
    | lt => exact ⟨e :: f :: fs, rfl⟩
    | eq =>
      obtain ⟨l, hl⟩ := ih fun x hx => hacc x (List.mem_cons_of_mem f hx)
      exact ⟨f :: l, by rw [hl]; rfl⟩
    | gt =>
      obtain ⟨l, hl⟩ := ih fun x hx => hacc x (List.mem_cons_of_mem f hx)
      exact ⟨f :: l, by rw [hl]; rfl⟩

theorem insertEdge_none_left {e : EdgeData} (he : e.weight = none)
    (f : EdgeData) (fs : List EdgeData) : insertEdge e (f :: fs) = none := by
  rw [insertEdge]
  cases hf : f.weight <;> rw [he] <;> rfl

theorem insertEdge_none_head {e f : EdgeData} (hf : f.weight = none)
    (fs : List EdgeData) : insertEdge e (f :: fs) = none := by
  rw [insertEdge]
  cases he : e.weight <;> rw [hf] <;> rfl

/-- Any comparison-based sort must compare each element at least once when
the list has two or more elements, so a NaN weight then aborts the sort. -/
theorem sortInto_none_of_nan :
    ∀ (es acc : List EdgeData), (∀ f ∈ acc, ∃ b, f.weight = some b) →
      (∃ e ∈ es, e.weight = none) → (acc ≠ [] ∨ 2 ≤ es.length) →
      sortInto acc es = none := by
  intro es
  induction es with
  | nil => intro acc _ hnan _; simp at hnan
  | cons e es ih =>
    intro acc hacc hnan hlen
    by_cases hew : e.weight = none
    · match acc, hlen with
      | f :: fs, _ =>
        rw [sortInto, insertEdge_none_left hew]
      | [], Or.inr h2 =>
        match es, h2 with
        | f :: fs, _ =>
          show sortInto [e] (f :: fs) = none
          rw [sortInto, insertEdge_none_head hew]
    · obtain ⟨g, hg, hgw⟩ := hnan
      have hg' : g ∈ es := by
        rcases List.mem_cons.mp hg with rfl | hg'
        · exact absurd hgw hew
        · exact hg'
      rw [sortInto]
      cases hins : insertEdge e acc with
      | none => rfl
      | some acc2 =>
        have hperm := insertEdge_perm hins
        refine ih acc2 ?_ ⟨g, hg', hgw⟩ (Or.inl ?_)
        · intro x hx
          rcases List.mem_cons.mp (hperm.subset hx) with rfl | hx'
          · cases hq : x.weight with
            | none => exact absurd hq hew
            | some q => exact ⟨q, rfl⟩
          · exact hacc x hx'
        · intro hnil
          have := hperm.length_eq
          simp [hnil] at this

theorem wle_trans {e f g : EdgeData} (h1 : wle e f) (h2 : wle f g) : wle e g := by
  obtain ⟨a, b, ha, hb, hab⟩ := h1
  obtain ⟨b', c, hb', hc, hbc⟩ := h2
  rw [hb] at hb'
  cases hb'
  exact ⟨a, c, ha, hc, le_trans hab hbc⟩

theorem insertEdge_pairwise {e : EdgeData} {acc l : List EdgeData}
    (h : insertEdge e acc = some l) (hs : acc.Pairwise wle) : l.Pairwise wle := by
  obtain ⟨l1, l2, h1, h2, h3, h4⟩ := insertEdge_some h
  subst h1 h2
  rw [List.pairwise_append] at hs
  obtain ⟨hs1, hs2, hs12⟩ := hs
  rw [List.pairwise_append]
  refine ⟨hs1, ?_, ?_⟩
  · rw [List.pairwise_cons]
    refine ⟨?_, hs2⟩
    intro x hx
    cases l2 with
    | nil => cases hx
    | cons g gs =>
      obtain ⟨a, b, ha, hb, hab⟩ := h4 g rfl
      have hle : wle e g := ⟨a, b, ha, hb, le_of_lt hab⟩
      rcases List.mem_cons.mp hx with rfl | hx'
      · exact hle
      · exact wle_trans hle ((List.pairwise_cons.mp hs2).1 x hx')
  · intro a ha b hb
    rcases List.mem_cons.mp hb with rfl | hb'
    · obtain ⟨x, y, hx, hy, hxy⟩ := h3 a ha
      exact ⟨y, x, hy, hx, hxy⟩
    · exact hs12 a ha b hb'

theorem insertEdge_filter {e : EdgeData} {acc l : List EdgeData}
    (h : insertEdge e acc = some l) (hs : acc.Pairwise wle) (w : ℚ) :
    l.filter (fun x => x.weight = some w) =
      acc.filter (fun x => x.weight = some w) ++
        (if e.weight = some w then [e] else []) := by
  obtain ⟨l1, l2, h1, h2, h3, h4⟩ := insertEdge_some h
  subst h1 h2
  rw [List.pairwise_append] at hs
  obtain ⟨-, hs2, -⟩ := hs
  by_cases hew : e.weight = some w
  · have hl2 : ∀ x ∈ l2, ¬ (x.weight = some w) := by
      intro x hx
      cases l2 with
      | nil => cases hx
      | cons g gs =>
        obtain ⟨a, b, ha, hb, hab⟩ := h4 g rfl
        rw [hew] at ha
        cases ha
        rcases List.mem_cons.mp hx with rfl | hx'
        · rw [hb]
          intro hcon
          cases hcon
          exact absurd hab (lt_irrefl w)
        · obtain ⟨b', c, hb', hc, hbc⟩ := (List.pairwise_cons.mp hs2).1 x hx'
          rw [hb] at hb'
          cases hb'
          rw [hc]
          intro hcon
          cases hcon
          exact absurd (lt_of_lt_of_le hab hbc) (lt_irrefl w)
    have hfl2 : l2.filter (fun x => x.weight = some w) = [] := by
      rw [List.filter_eq_nil_iff]
      intro x hx
      simpa using hl2 x hx
    simp [List.filter_append, List.filter_cons, hew, hfl2]
  · simp [List.filter_append, List.filter_cons, hew]

theorem sortInto_spec :
    ∀ (es acc l : List EdgeData), sortInto acc es = some l →
      (∀ e ∈ es, ∃ q, e.weight = some q) →
      (∀ f ∈ acc, ∃ q, f.weight = some q) →
      acc.Pairwise wle →
      l.Perm (acc ++ es) ∧ l.Pairwise wle ∧
        ∀ w : ℚ, l.filter (fun x => x.weight = some w) =
          acc.filter (fun x => x.weight = some w) ++
            es.filter (fun x => x.weight = some w) := by
  intro es
  induction es with
  | nil =>
    intro acc l h _ _ hsort
    simp only [sortInto, Option.some.injEq] at h
    subst h
    simp [hsort, List.Perm.refl]
  | cons e es ih =>
    intro acc l h hes hacc hsort
    rw [sortInto] at h
    cases hins : insertEdge e acc with
    | none => rw [hins] at h; cases h
    | some acc2 =>
      rw [hins] at h
      have hperm := insertEdge_perm hins
      have hacc2 : ∀ f ∈ acc2, ∃ q, f.weight = some q := by
        intro x hx
        rcases List.mem_cons.mp (hperm.subset hx) with rfl | hx'
        · exact hes x (by simp)
        · exact hacc x hx'
      have hsort2 := insertEdge_pairwise hins hsort
      obtain ⟨hp, hpw, hf⟩ := ih acc2 l h
        (fun x hx => hes x (List.mem_cons_of_mem e hx)) hacc2 hsort2
      refine ⟨?_, hpw, ?_⟩
      · exact hp.trans ((hperm.append_right es).trans List.perm_middle.symm)
      · intro w
        rw [hf w, insertEdge_filter hins hsort w, List.filter_cons]
        by_cases hew : e.weight = some w
        · simp [hew, List.append_assoc]
        · simp [hew]

theorem sortInto_isSome :
    ∀ (es acc : List EdgeData), (∀ e ∈ es, ∃ q, e.weight = some q) →
      (∀ f ∈ acc, ∃ q, f.weight = some q) →
      ∃ l, sortInto acc es = some l := by
  intro es
  induction es with
  | nil => intro acc _ _; exact ⟨acc, rfl⟩
  | cons e es ih =>
    intro acc hes hacc
    obtain ⟨q, hq⟩ := hes e (by simp)
    obtain ⟨acc2, hacc2⟩ := insertEdge_isSome hq hacc
    have hperm := insertEdge_perm hacc2
    obtain ⟨l, hl⟩ := ih acc2 (fun x hx => hes x (List.mem_cons_of_mem e hx))
      (by
        intro x hx
        rcases List.mem_cons.mp (hperm.subset hx) with rfl | hx'
        · exact ⟨q, hq⟩
        · exact hacc x hx')
    exact ⟨l, by rw [sortInto, hacc2]; exact hl⟩

theorem sortEdges_isSome {es : List EdgeData}
    (h : ∀ e ∈ es, ∃ q, e.weight = some q) : ∃ l, sortEdges es = some l :=
  sortInto_isSome es [] h (by simp)

theorem sortEdges_none_of_nan {es : List EdgeData} (h2 : 2 ≤ es.length)
    (hnan : ∃ e ∈ es, e.weight = none) : sortEdges es = none :=
  sortInto_none_of_nan es [] (by simp) hnan (Or.inr h2)

/-- Full characterization of a successful sort: a permutation, sorted by
weight, and stable (each exact-weight class keeps its enumeration order). -/
theorem sortEdges_spec {es l : List EdgeData} (h : sortEdges es = some l) :
    l.Perm es ∧ l.Pairwise wle ∧
      ∀ w : ℚ, l.filter (fun x => x.weight = some w) =
        es.filter (fun x => x.weight = some w) := by
  by_cases hall : ∀ e ∈ es, ∃ q, e.weight = some q
  · obtain ⟨hp, hpw, hf⟩ := sortInto_spec es [] l h hall (by simp) (by simp)
    exact ⟨by simpa using hp, hpw, by simpa using hf⟩
  · push_neg at hall
    obtain ⟨g, hg, hgw⟩ := hall
    have hgw' : g.weight = none := by
      cases hq : g.weight with
      | none => rfl
      | some q => exact absurd hq (hgw q)
    have hlen : es.length < 2 := by
      by_contra hcon
      push_neg at hcon
      rw [sortEdges_none_of_nan hcon ⟨g, hg, hgw'⟩] at h
      cases h
    cases es with
    | nil => cases hg
    | cons e rest =>
      cases rest with
      | nil =>
        have hge : g = e := by simpa using hg
        subst hge
        have hl : l = [g] := by
          simpa [sortEdges, sortInto, insertEdge] using h.symm
        subst hl
        exact ⟨List.Perm.refl _, by simp, fun w => rfl⟩
      | cons f rest2 =>
        simp only [List.length_cons] at hlen
        omega

/-! ## The forwarding forest: lookup, chains and their preservation -/

theorem RootIn.root_here {comps : List ComponentSlot} {i r t : ℕ}
    (h : RootIn comps i r t) : ∃ c, comps[r]? = some (.Here c) := by
  induction h with
  | here hc => exact ⟨_, hc⟩
  | there _ _ ih => exact ih

theorem get_component_of_rootIn {comps : List ComponentSlot} {i r t : ℕ}
    (h : RootIn comps i r t) :
    ∀ fuel, t < fuel →
      ∃ c, get_component comps i fuel = some (r, c) ∧
        comps[r]? = some (.Here c) := by
  induction h with
  | here hc =>
    intro fuel hfuel
    match fuel, hfuel with
    | m + 1, _ => exact ⟨_, by rw [get_component, hc], hc⟩
  | there hthere _ ih =>
    intro fuel hfuel
    match fuel, hfuel with
    | m + 1, hfuel =>
      obtain ⟨c, hget, hr⟩ := ih m (by omega)
      exact ⟨c, by rw [get_component, hthere]; exact hget, hr⟩

theorem rootIn_of_get_component {comps : List ComponentSlot} :
    ∀ {fuel i r : ℕ} {c : Component},
      get_component comps i fuel = some (r, c) →
      ∃ t, RootIn comps i r t ∧ t < fuel ∧ comps[r]? = some (.Here c) := by
  intro fuel
  induction fuel with
  | zero => intro i r c h; cases h
  | succ m ih =>
    intro i r c h
    rw [get_component] at h
    cases hslot : comps[i]? with
    | none => rw [hslot] at h; cases h
    | some s =>
      cases s with
      | Here c0 =>
        rw [hslot] at h
        simp only [Option.some.injEq, Prod.mk.injEq] at h
        obtain ⟨rfl, rfl⟩ := h
        exact ⟨0, .here hslot, by omega, hslot⟩
      | There j =>
        rw [hslot] at h
        obtain ⟨t, hroot, hlt, hr⟩ := ih h
        exact ⟨t + 1, .there hslot hroot, by omega, hr⟩

theorem RootIn.unique {comps : List ComponentSlot} {i r t r' t' : ℕ}
    (h : RootIn comps i r t) (h' : RootIn comps i r' t') : r = r' ∧ t = t' := by
  induction h generalizing t' with
  | here hc =>
    cases h' with
    | here _ => exact ⟨rfl, rfl⟩
    | there hthere _ => rw [hc] at hthere; cases hthere
  | there hthere hrest ih =>
    cases h' with
    | here hc => rw [hc] at hthere; cases hthere
    | there hthere' hrest' =>
      rw [hthere] at hthere'
      cases hthere'
      obtain ⟨hr, ht⟩ := ih hrest'
      exact ⟨hr, by omega⟩

theorem rootIdx_eq_of_rootIn {comps : List ComponentSlot} {i r t : ℕ}
    (h : RootIn comps i r t) (hfuel : t < comps.length) :
    rootIdx comps i = some r := by
  obtain ⟨c, hget, -⟩ := get_component_of_rootIn h comps.length hfuel
  rw [rootIdx, hget]
  rfl

theorem thereCount_lt_of_here {comps : List ComponentSlot} {r : ℕ}
    {c : Component} (h : comps[r]? = some (.Here c)) :
    thereCount comps < comps.length := by
  have hmem : ComponentSlot.Here c ∈ comps := by
    obtain ⟨hlt, hget⟩ := List.getElem?_eq_some.mp h
    exact hget ▸ List.getElem_mem hlt
  have hle : thereCount comps ≤ comps.length := List.countP_le_length _
  rcases lt_or_eq_of_le hle with hlt | heq
  · exact hlt
  · exact absurd (List.countP_eq_length.mp heq _ hmem) (by simp [isHere])

/-! ### The three slots after a merge -/

theorem mergeInto_length {comps : List ComponentSlot} {c1i c2i : ℕ}
    {nc : Component} :
    (mergeInto comps c1i c2i nc).length = comps.length := by
  simp [mergeInto]

theorem mergeInto_getElem_c2 {comps : List ComponentSlot} {c1i c2i : ℕ}
    {nc : Component} (h2 : c2i < comps.length) :
    (mergeInto comps c1i c2i nc)[c2i]? = some (.There c1i) :=
  List.getElem?_set_self (by simpa using h2)

theorem mergeInto_getElem_c1 {comps : List ComponentSlot} {c1i c2i : ℕ}
    {nc : Component} (hne : c1i ≠ c2i) (h1 : c1i < comps.length) :
    (mergeInto comps c1i c2i nc)[c1i]? = some (.Here nc) := by
  rw [mergeInto, List.getElem?_set_ne (fun h => hne h.symm),
    List.getElem?_set_self h1]

theorem mergeInto_getElem_other {comps : List ComponentSlot} {c1i c2i x : ℕ}
    {nc : Component} (hx1 : x ≠ c1i) (hx2 : x ≠ c2i) :
    (mergeInto comps c1i c2i nc)[x]? = comps[x]? := by
  rw [mergeInto, List.getElem?_set_ne (fun h => hx2 h.symm),
    List.getElem?_set_ne (fun h => hx1 h.symm)]

theorem thereCount_mergeInto {comps : List ComponentSlot} {c1i c2i : ℕ}
    {c1 c2 nc : Component}
    (hc1 : comps[c1i]? = some (.Here c1)) (hc2 : comps[c2i]? = some (.Here c2))
    (hne : c1i ≠ c2i) :
    thereCount (mergeInto comps c1i c2i nc) = thereCount comps + 1 := by
  obtain ⟨hlt1, hget1⟩ := List.getElem?_eq_some.mp hc1
  obtain ⟨hlt2, hget2⟩ := List.getElem?_eq_some.mp hc2
  have hlt2' : c2i < (comps.set c1i (ComponentSlot.Here nc)).length := by
    simpa using hlt2
  have hv2 : (comps.set c1i (ComponentSlot.Here nc))[c2i] = ComponentSlot.Here c2 := by
    have h := List.getElem?_set_ne (l := comps) (a := ComponentSlot.Here nc) hne
      (j := c2i)
    rw [hc2] at h
    exact (List.getElem?_eq_some.mp h).2
  rw [mergeInto, thereCount, List.countP_set _ _ _ _ hlt2', hv2,
    List.countP_set _ _ _ _ hlt1, hget1]
  simp [thereCount, isHere]

/-- How a forward chain is rewired by a merge: chains ending at the absorbed
root `c2i` gain one step and end at `c1i`; all other chains are unchanged. -/
theorem rootIn_mergeInto {comps : List ComponentSlot} {c1i c2i : ℕ}
    {c1 c2 : Component} {d : Component}
    (hc1 : comps[c1i]? = some (.Here c1)) (hc2 : comps[c2i]? = some (.Here c2))
    (hne : c1i ≠ c2i) {i r t : ℕ} (h : RootIn comps i r t) :
    (r = c2i → RootIn (mergeInto comps c1i c2i d) i c1i (t + 1)) ∧
    (r ≠ c2i → RootIn (mergeInto comps c1i c2i d) i r t) := by
  have hlt1 : c1i < comps.length := (List.getElem?_eq_some.mp hc1).1
  have hlt2 : c2i < comps.length := (List.getElem?_eq_some.mp hc2).1
  induction h with
  | here hc =>
    rename_i i0 c0
    constructor
    · intro hr
      subst hr
      exact .there (mergeInto_getElem_c2 hlt2)
        (.here (mergeInto_getElem_c1 hne hlt1))
    · intro hr
      by_cases h1 : i0 = c1i
      · subst h1
        exact .here (mergeInto_getElem_c1 hne hlt1)
      · exact .here (by rw [mergeInto_getElem_other h1 hr]; exact hc)
  | there hthere hrest ih =>
    rename_i i0 j0 r0 t0
    have hi0 : i0 ≠ c1i := by
      intro h
      subst h
      rw [hc1] at hthere
      cases hthere
    have hi0' : i0 ≠ c2i := by
      intro h
      subst h
      rw [hc2] at hthere
      cases hthere
    have hthere' : (mergeInto comps c1i c2i d)[i0]? = some (.There j0) := by
      rw [mergeInto_getElem_other hi0 hi0']
      exact hthere
    constructor
    · intro hr
      exact .there hthere' (ih.1 hr)
    · intro hr
      exact .there hthere' (ih.2 hr)

/-! ## The merge-loop invariant -/

theorem countP_range_decide_eq (n i0 : ℕ) :
    (List.range n).countP (fun i => decide (i = i0)) =
      if i0 < n then 1 else 0 := by
  induction n with
  | zero => simp
  | succ m ih =>
    rw [List.range_succ, List.countP_append, ih]
    by_cases h : i0 < m
    · have hne : ¬ (m = i0) := by omega
      have h2 : i0 < m + 1 := by omega
      simp [List.countP_cons, h, h2, hne]
    · by_cases h2 : i0 < m + 1
      · have : m = i0 := by omega
        simp [List.countP_cons, h, h2, this]
      · have : ¬ (m = i0) := by omega
        simp [List.countP_cons, h, h2, this]

theorem countP_or_disjoint {α : Type} (l : List α) (p q : α → Prop)
    [DecidablePred p] [DecidablePred q] (h : ∀ a ∈ l, ¬(p a ∧ q a)) :
    l.countP (fun a => decide (p a ∨ q a)) =
      l.countP (fun a => decide (p a)) + l.countP (fun a => decide (q a)) := by
  induction l with
  | nil => simp
  | cons a l ih =>
    have ha := h a (by simp)
    rw [List.countP_cons, List.countP_cons, List.countP_cons,
      ih fun x hx => h x (List.mem_cons_of_mem a hx)]
    by_cases hp : p a
    · have hq : ¬ q a := fun hq => ha ⟨hp, hq⟩
      simp [hp, hq]
      omega
    · by_cases hq : q a
      · simp [hp, hq]
        omega
      · simp [hp, hq]

theorem segInv_init (n : ℕ) : SegInv n (initComponents n) := by
  have hlen : (initComponents n).length = n := by simp [initComponents]
  have hget : ∀ i < n,
      (initComponents n)[i]? =
        some (.Here { int_diff := 0, node_count := 1 }) := by
    intro i hi
    simp [initComponents, List.getElem?_replicate, hi]
  have hroot : ∀ i < n, rootIdx (initComponents n) i = some i := by
    intro i hi
    exact rootIdx_eq_of_rootIn (.here (hget i hi)) (by omega)
  refine ⟨hlen, ?_, ?_⟩
  · intro i hi
    exact ⟨i, 0, .here (hget i hi), by omega⟩
  · intro r c hc
    have hr : r < n := by
      have := (List.getElem?_eq_some.mp hc).1
      omega
    have hcval : c = { int_diff := 0, node_count := 1 } := by
      rw [hget r hr] at hc
      cases hc
      rfl
    have : ((List.range n).countP fun i =>
        decide (rootIdx (initComponents n) i = some r)) =
        (List.range n).countP fun i => decide (i = r) := by
      apply List.countP_congr
      intro i hi
      rw [hroot i (List.mem_range.mp hi)]
      simp
    rw [this, countP_range_decide_eq, hcval]
    simp [hr]

theorem rootIdx_mergeInto {n : ℕ} {comps : List ComponentSlot}
    (hinv : SegInv n comps) {c1i c2i : ℕ} {c1 c2 nc : Component}
    (hc1 : comps[c1i]? = some (.Here c1)) (hc2 : comps[c2i]? = some (.Here c2))
    (hne : c1i ≠ c2i) {i : ℕ} (hi : i < n) :
    rootIdx (mergeInto comps c1i c2i nc) i =
      if rootIdx comps i = some c2i then some c1i else rootIdx comps i := by
  obtain ⟨r, t, hroot, htc⟩ := hinv.reach i hi
  have hlenc : thereCount comps < comps.length := thereCount_lt_of_here hc1
  have hold : rootIdx comps i = some r := rootIdx_eq_of_rootIn hroot (by omega)
  have htrans := rootIn_mergeInto (d := nc) hc1 hc2 hne hroot
  have hlen' : (mergeInto comps c1i c2i nc).length = comps.length :=
    mergeInto_length
  have htc' : thereCount (mergeInto comps c1i c2i nc) = thereCount comps + 1 :=
    thereCount_mergeInto hc1 hc2 hne
  have hlt1 : c1i < comps.length := (List.getElem?_eq_some.mp hc1).1
  have hhere : (mergeInto comps c1i c2i nc)[c1i]? = some (.Here nc) :=
    mergeInto_getElem_c1 hne hlt1
  have hlenc' : thereCount (mergeInto comps c1i c2i nc) <
      (mergeInto comps c1i c2i nc).length := thereCount_lt_of_here hhere
  by_cases hr : r = c2i
  · subst hr
    rw [hold]
    simp only [if_pos rfl]
    exact rootIdx_eq_of_rootIn (htrans.1 rfl) (by omega)
  · have : rootIdx (mergeInto comps c1i c2i nc) i = some r :=
      rootIdx_eq_of_rootIn (htrans.2 hr) (by omega)
    rw [this, hold]
    have : ¬ ((some r : Option ℕ) = some c2i) := by
      simp [hr]
    rw [if_neg this]

theorem segInv_mergeInto {n : ℕ} {comps : List ComponentSlot}
    (hinv : SegInv n comps) {c1i c2i : ℕ} {c1 c2 : Component} {w : Option ℚ}
    (hc1 : comps[c1i]? = some (.Here c1)) (hc2 : comps[c2i]? = some (.Here c2))
    (hne : c1i ≠ c2i)
    (hn1 : c1.node_count =
      (List.range n).countP fun i => decide (rootIdx comps i = some c1i))
    (hn2 : c2.node_count =
      (List.range n).countP fun i => decide (rootIdx comps i = some c2i)) :
    SegInv n (mergeInto comps c1i c2i (mergedComponent c1 c2 w)) := by
  set nc := mergedComponent c1 c2 w with hnc
  have hlt1 : c1i < comps.length := (List.getElem?_eq_some.mp hc1).1
  have hlt2 : c2i < comps.length := (List.getElem?_eq_some.mp hc2).1
  have hlen' : (mergeInto comps c1i c2i nc).length = comps.length :=
    mergeInto_length
  have htc' : thereCount (mergeInto comps c1i c2i nc) = thereCount comps + 1 :=
    thereCount_mergeInto hc1 hc2 hne
  refine ⟨by rw [hlen', hinv.len], ?_, ?_⟩
  · intro i hi
    obtain ⟨r, t, hroot, htc⟩ := hinv.reach i hi
    have htrans := rootIn_mergeInto (d := nc) hc1 hc2 hne hroot
    by_cases hr : r = c2i
    · exact ⟨c1i, t + 1, htrans.1 hr, by omega⟩
    · exact ⟨r, t, htrans.2 hr, by omega⟩
  · intro r c hc
    by_cases hrc2 : r = c2i
    · subst hrc2
      rw [mergeInto_getElem_c2 hlt2] at hc
      cases hc
    · by_cases hrc1 : r = c1i
      · subst hrc1
        rw [mergeInto_getElem_c1 hne hlt1] at hc
        cases hc
        have hcong : ((List.range n).countP fun i =>
            decide (rootIdx (mergeInto comps r c2i nc) i = some r)) =
            (List.range n).countP fun i =>
              decide (rootIdx comps i = some r ∨ rootIdx comps i = some c2i) := by
          apply List.countP_congr
          intro i hi
          rw [rootIdx_mergeInto hinv hc1 hc2 hne (List.mem_range.mp hi)]
          by_cases h2 : rootIdx comps i = some c2i
          · simp [h2]
          · simp only [if_neg h2]
            by_cases h1 : rootIdx comps i = some r
            · simp [h1, h2]
            · simp [h1, h2]
        rw [hcong, countP_or_disjoint _ _ _ (by
          intro a _ hcon
          have h1 := hcon.1
          have h2 := hcon.2
          rw [h1] at h2
          simp only [Option.some.injEq] at h2
          exact hne h2)]
        rw [hnc]
        show c1.node_count + c2.node_count = _
        rw [hn1, hn2]
      · rw [mergeInto_getElem_other hrc1 hrc2] at hc
        have hcong : ((List.range n).countP fun i =>
            decide (rootIdx (mergeInto comps c1i c2i nc) i = some r)) =
            (List.range n).countP fun i =>
              decide (rootIdx comps i = some r) := by
          apply List.countP_congr
          intro i hi
          rw [rootIdx_mergeInto hinv hc1 hc2 hne (List.mem_range.mp hi)]
          by_cases h2 : rootIdx comps i = some c2i
          · simp only [if_pos h2, h2]
            have hr1 : ¬ ((some c1i : Option ℕ) = some r) := by simp [Ne.symm hrc1]
            have hr2 : ¬ ((some c2i : Option ℕ) = some r) := by simp [Ne.symm hrc2]
            simp [hr1, hr2]
          · rw [if_neg h2]
        rw [hcong]
        exact hinv.count r c hc

theorem mergeStep_inv {n : ℕ} {comps comps2 : List ComponentSlot} {k : ℚ}
    {e : EdgeData} (hinv : SegInv n comps)
    (h : mergeStep k comps e = some comps2) : SegInv n comps2 := by
  rw [mergeStep] at h
  cases hg1 : get_component comps e.source comps.length with
  | none => rw [hg1] at h; cases h
  | some p1 =>
    obtain ⟨c1i, c1⟩ := p1
    cases hg2 : get_component comps e.target comps.length with
    | none => rw [hg1, hg2] at h; cases h
    | some p2 =>
      obtain ⟨c2i, c2⟩ := p2
      simp only [hg1, hg2] at h
      by_cases heq : c1i = c2i
      · rw [if_pos heq] at h
        cases h
        exact hinv
      · rw [if_neg heq] at h
        by_cases hgt : weightGt e.weight
            (min (c1.int_diff + k / (c1.node_count : ℚ))
                 (c2.int_diff + k / (c2.node_count : ℚ))) = true
        · rw [if_pos hgt] at h
          cases h
          exact hinv
        · rw [if_neg hgt] at h
          cases h
          obtain ⟨t1, hroot1, -, hc1⟩ := rootIn_of_get_component hg1
          obtain ⟨t2, hroot2, -, hc2⟩ := rootIn_of_get_component hg2
          exact segInv_mergeInto hinv hc1 hc2 heq
            (hinv.count c1i c1 hc1) (hinv.count c2i c2 hc2)

theorem mergeStep_isSome {n : ℕ} {comps : List ComponentSlot} {k : ℚ}
    {e : EdgeData} (hinv : SegInv n comps) (hs : e.source < n)
    (ht : e.target < n) : ∃ comps2, mergeStep k comps e = some comps2 := by
  obtain ⟨r1, t1, hroot1, htc1⟩ := hinv.reach e.source hs
  obtain ⟨r2, t2, hroot2, htc2⟩ := hinv.reach e.target ht
  obtain ⟨ch, hh⟩ := hroot1.root_here
  have hlenc : thereCount comps < comps.length := thereCount_lt_of_here hh
  obtain ⟨cc1, hg1, -⟩ := get_component_of_rootIn hroot1 comps.length (by omega)
  obtain ⟨cc2, hg2, -⟩ := get_component_of_rootIn hroot2 comps.length (by omega)
  simp only [mergeStep, hg1, hg2]
  by_cases heq : r1 = r2
  · exact ⟨comps, by rw [if_pos heq]⟩
  · rw [if_neg heq]
    by_cases hgt : weightGt e.weight
        (min (cc1.int_diff + k / (cc1.node_count : ℚ))
             (cc2.int_diff + k / (cc2.node_count : ℚ))) = true
    · exact ⟨comps, by rw [if_pos hgt]⟩
    · exact ⟨_, by rw [if_neg hgt]⟩

theorem runMerges_inv {n : ℕ} {k : ℚ} :
    ∀ {edges : List EdgeData} {comps comps2 : List ComponentSlot},
      SegInv n comps → runMerges k comps edges = some comps2 →
      SegInv n comps2 := by
  intro edges
  induction edges with
  | nil =>
    intro comps comps2 hinv h
    rw [runMerges] at h
    cases h
    exact hinv
  | cons e es ih =>
    intro comps comps2 hinv h
    rw [runMerges] at h
    cases hm : mergeStep k comps e with
    | none => rw [hm] at h; cases h
    | some compsm =>
      rw [hm] at h
      exact ih (mergeStep_inv hinv hm) h

theorem runMerges_isSome {n : ℕ} {k : ℚ} :
    ∀ {edges : List EdgeData} {comps : List ComponentSlot},
      SegInv n comps → (∀ e ∈ edges, e.source < n ∧ e.target < n) →
      ∃ comps2, runMerges k comps edges = some comps2 := by
  intro edges
  induction edges with
  | nil => intro comps _ _; exact ⟨comps, rfl⟩
  | cons e es ih =>
    intro comps hinv hb
    obtain ⟨hs, ht⟩ := hb e (by simp)
    obtain ⟨compsm, hm⟩ := mergeStep_isSome (k := k) hinv hs ht
    obtain ⟨comps2, h2⟩ := ih (mergeStep_inv hinv hm)
      fun x hx => hb x (List.mem_cons_of_mem e hx)
    exact ⟨comps2, by rw [runMerges, hm]; exact h2⟩

/-! ## Dense relabeling -/

theorem out_components_getElem_hcb :
    ∀ (comps : List ComponentSlot) (i : ℕ) (c : Component),
      comps[i]? = some (.Here c) →
      (out_components comps)[hereCountBefore comps i]? = some c := by
  intro comps
  induction comps with
  | nil => intro i c h; cases h
  | cons s rest ih =>
    intro i c h
    cases i with
    | zero =>
      simp only [List.getElem?_cons_zero, Option.some.injEq] at h
      subst h
      simp [out_components, hereCountBefore, hereComponent]
    | succ i =>
      rw [List.getElem?_cons_succ] at h
      have hcb : hereCountBefore (s :: rest) (i + 1) =
          hereCountBefore rest i + (if isHere s then 1 else 0) := by
        simp only [hereCountBefore, List.take_succ_cons, List.countP_cons]
      cases s with
      | Here c0 =>
        rw [hcb]
        simp only [isHere, if_pos]
        have : out_components (.Here c0 :: rest) = c0 :: out_components rest := by
          simp [out_components, hereComponent]
        rw [this, List.getElem?_cons_succ]
        exact ih i c h
      | There j =>
        rw [hcb]
        simp only [isHere, if_neg, Nat.add_zero]
        have : out_components (.There j :: rest) = out_components rest := by
          simp [out_components, hereComponent]
        rw [this]
        exact ih i c h

theorem hcb_lt_out_length {comps : List ComponentSlot} {i : ℕ} {c : Component}
    (h : comps[i]? = some (.Here c)) :
    hereCountBefore comps i < (out_components comps).length :=
  (List.getElem?_eq_some.mp (out_components_getElem_hcb comps i c h)).1

theorem hereCountBefore_strictMono {comps : List ComponentSlot} {i j : ℕ}
    {c d : Component} (hij : i < j) (hi : comps[i]? = some (.Here c))
    (hj : comps[j]? = some (.Here d)) :
    hereCountBefore comps i < hereCountBefore comps j := by
  have hil : i < comps.length := (List.getElem?_eq_some.mp hi).1
  have hjl : j < comps.length := (List.getElem?_eq_some.mp hj).1
  have hsucc : hereCountBefore comps (i + 1) = hereCountBefore comps i + 1 := by
    rw [hereCountBefore, hereCountBefore, List.take_succ, List.countP_append]
    obtain ⟨hlt, hget⟩ := List.getElem?_eq_some.mp hi
    rw [hi]
    simp [isHere, hget]
  have hmono : hereCountBefore comps (i + 1) ≤ hereCountBefore comps j := by
    have h1 : (comps.take j).take (i + 1) = comps.take (i + 1) := by
      rw [List.take_take]
      congr 1
      omega
    have h2 : comps.take j =
        (comps.take j).take (i + 1) ++ (comps.take j).drop (i + 1) :=
      (List.take_append_drop _ _).symm
    rw [hereCountBefore, hereCountBefore, h2, h1, List.countP_append]
    omega
  omega

theorem out_components_surj :
    ∀ (comps : List ComponentSlot) (j : ℕ) (c : Component),
      (out_components comps)[j]? = some c →
      ∃ r, comps[r]? = some (.Here c) ∧ hereCountBefore comps r = j := by
  intro comps
  induction comps with
  | nil => intro j c h; cases h
  | cons s rest ih =>
    intro j c h
    cases s with
    | Here c0 =>
      have hout : out_components (.Here c0 :: rest) = c0 :: out_components rest := by
        simp [out_components, hereComponent]
      rw [hout] at h
      cases j with
      | zero =>
        simp only [List.getElem?_cons_zero, Option.some.injEq] at h
        subst h
        exact ⟨0, by simp, rfl⟩
      | succ j =>
        rw [List.getElem?_cons_succ] at h
        obtain ⟨r, hr, hcb⟩ := ih j c h
        refine ⟨r + 1, by rw [List.getElem?_cons_succ]; exact hr, ?_⟩
        simp only [hereCountBefore, List.take_succ_cons, List.countP_cons,
          isHere]
        rw [hereCountBefore] at hcb
        simp [hcb]
    | There j0 =>
      have hout : out_components (.There j0 :: rest) = out_components rest := by
        simp [out_components, hereComponent]
      rw [hout] at h
      obtain ⟨r, hr, hcb⟩ := ih j c h
      refine ⟨r + 1, by rw [List.getElem?_cons_succ]; exact hr, ?_⟩
      simp only [hereCountBefore, List.take_succ_cons, List.countP_cons, isHere]
      rw [hereCountBefore] at hcb
      simp [hcb]

theorem mapM_option_eq_map {α β : Type} {f : α → Option β} {g : α → β} :
    ∀ {l : List α}, (∀ v ∈ l, f v = some (g v)) →
      l.mapM f = some (l.map g) := by
  intro l
  induction l with
  | nil => intro _; rfl
  | cons a l ih =>
    intro h
    rw [List.mapM_cons, h a (by simp), ih fun v hv => h v (List.mem_cons_of_mem a hv)]
    rfl

/-- What one node's lookup contributes inside `segment`. -/
theorem nodeLabel_spec {n : ℕ} {comps : List ComponentSlot}
    (hinv : SegInv n comps) {v : ℕ} (hv : v < n) :
    ∃ r c, get_component comps v comps.length = some (r, c) ∧
      comps[r]? = some (.Here c) ∧
      nodeLabel comps v = hereCountBefore comps r ∧
      component_map comps r = some (hereCountBefore comps r) ∧
      nodeLabel comps v < (out_components comps).length ∧
      rootIdx comps v = some r := by
  obtain ⟨r, t, hroot, htc⟩ := hinv.reach v hv
  obtain ⟨ch, hh⟩ := hroot.root_here
  have hlenc : thereCount comps < comps.length := thereCount_lt_of_here hh
  obtain ⟨c, hget, hr⟩ := get_component_of_rootIn hroot comps.length (by omega)
  refine ⟨r, c, hget, hr, ?_, ?_, ?_, ?_⟩
  · rw [nodeLabel, hget]
  · rw [component_map, hr]
  · rw [nodeLabel, hget]
    exact hcb_lt_out_length hr
  · rw [rootIdx, hget]
    rfl

/-- Full characterization of a successful `segment` run. -/
theorem segment_eq_of_runMerges {n : ℕ} {edges queue : List EdgeData} {k : ℚ}
    {comps : List ComponentSlot}
    (hq : sortEdges edges = some queue)
    (hr : runMerges k (initComponents n) queue = some comps) :
    SegInv n comps ∧
      segment n edges k = some
        { node_components := (List.range n).map (nodeLabel comps)
          components := out_components comps } := by
  have hinv := runMerges_inv (segInv_init n) hr
  refine ⟨hinv, ?_⟩
  have hmap : (List.range n).mapM (fun node_idx =>
      match get_component comps node_idx comps.length with
      | none => none
      | some (r, _) => component_map comps r) =
      some ((List.range n).map (nodeLabel comps)) := by
    apply mapM_option_eq_map
    intro v hv
    obtain ⟨r, c, hget, hcr, hlbl, hcm, -, -⟩ :=
      nodeLabel_spec hinv (List.mem_range.mp hv)
    simp only [hget]
    rw [hcm, hlbl]
  simp only [segment, hq, hr, hmap]

theorem segment_isSome {n : ℕ} {edges : List EdgeData} {k : ℚ}
    (hb : ∀ e ∈ edges, e.source < n ∧ e.target < n)
    (hw : ∀ e ∈ edges, ∃ q, e.weight = some q) :
    ∃ comps, SegInv n comps ∧
      segment n edges k = some
        { node_components := (List.range n).map (nodeLabel comps)
          components := out_components comps } := by
  obtain ⟨queue, hq⟩ := sortEdges_isSome hw
  have hperm := (sortEdges_spec hq).1
  obtain ⟨comps, hr⟩ := runMerges_isSome (segInv_init n)
    fun e he => hb e (hperm.subset he)
  obtain ⟨hinv, hseg⟩ := segment_eq_of_runMerges hq hr
  exact ⟨comps, hinv, hseg⟩

/-! ## Pixel grid lemmas -/

theorem from_index_to_index {W : ℕ} {p : PixelCoordinate} (hx : p.x < W) :
    from_index W (to_index W p) = p := by
  obtain ⟨x, y⟩ := p
  simp only [to_index, from_index]
  congr 1
  · rw [Nat.add_comm, Nat.add_mul_mod_self_right]
    exact Nat.mod_eq_of_lt hx
  · rw [Nat.add_comm, Nat.add_mul_div_right _ _ (by omega : 0 < W),
      Nat.div_eq_of_lt hx]
    omega

theorem to_index_from_index (W i : ℕ) :
    to_index W (from_index W i) = i := by
  simp only [to_index, from_index]
  rw [Nat.mul_comm]
  exact Nat.div_add_mod i W

theorem to_index_lt {W H : ℕ} {p : PixelCoordinate} (hx : p.x < W)
    (hy : p.y < H) : to_index W p < W * H := by
  have h1 : p.y * W + p.x < (p.y + 1) * W := by
    rw [Nat.succ_mul]
    omega
  have h2 : (p.y + 1) * W ≤ H * W := Nat.mul_le_mul_right W (by omega)
  rw [to_index]
  calc p.y * W + p.x < (p.y + 1) * W := h1
    _ ≤ H * W := h2
    _ = W * H := Nat.mul_comm H W

theorem from_index_lt {W H : ℕ} (hW : 0 < W) {i : ℕ} (hi : i < W * H) :
    (from_index W i).x < W ∧ (from_index W i).y < H := by
  constructor
  · exact Nat.mod_lt i hW
  · rw [from_index]
    show i / W < H
    rw [Nat.div_lt_iff_lt_mul hW]
    calc i < W * H := hi
      _ = H * W := Nat.mul_comm W H

theorem pixelEdgesAt_bounds {W H : ℕ} {p : PixelCoordinate} {e : PEdge}
    (hx : p.x < W) (hy : p.y < H) (he : e ∈ pixelEdgesAt W H p) :
    e.base = p ∧ e.base.x < W ∧ e.base.y < H ∧
      (e.neighbor.apply e.base).x < W ∧ (e.neighbor.apply e.base).y < H := by
  rw [pixelEdgesAt] at he
  simp only [List.mem_append] at he
  rcases he with ((h | h) | h) | h
  · rcases Decidable.em (p.x < W - 1) with hc | hc
    · rw [if_pos hc] at h
      simp only [List.mem_singleton] at h
      subst h
      simp only [Neighbor.apply]
      refine ⟨by simp, hx, hy, by omega, by omega⟩
    · rw [if_neg hc] at h
      cases h
  · rcases Decidable.em (p.y < H - 1) with hc | hc
    · rw [if_pos hc] at h
      simp only [List.mem_singleton] at h
      subst h
      simp only [Neighbor.apply]
      refine ⟨by simp, hx, hy, by omega, by omega⟩
    · rw [if_neg hc] at h
      cases h
  · rcases Decidable.em (p.x < W - 1 ∧ p.y < H - 1) with hc | hc
    · rw [if_pos hc] at h
      simp only [List.mem_singleton] at h
      subst h
      simp only [Neighbor.apply]
      exact ⟨by simp, hx, hy, by omega, by omega⟩
    · rw [if_neg hc] at h
      cases h
  · rcases Decidable.em (0 < p.x ∧ p.y < H - 1) with hc | hc
    · rw [if_pos hc] at h
      simp only [List.mem_singleton] at h
      subst h
      simp only [Neighbor.apply]
      exact ⟨by simp, hx, hy, by omega, by omega⟩
    · rw [if_neg hc] at h
      cases h

theorem pixelEdges_bounds {W H : ℕ} {e : PEdge} (he : e ∈ pixelEdges W H) :
    e.base.x < W ∧ e.base.y < H ∧
      (e.neighbor.apply e.base).x < W ∧ (e.neighbor.apply e.base).y < H := by
  rw [pixelEdges] at he
  obtain ⟨y, hy, he⟩ := List.mem_flatMap.mp he
  obtain ⟨x, hx, he⟩ := List.mem_flatMap.mp he
  obtain ⟨-, h⟩ := pixelEdgesAt_bounds (List.mem_range.mp hx)
    (List.mem_range.mp hy) he
  exact h

theorem pixelGraphEdges_mem {W H : ℕ} {img : ℕ → ℕ → ℕ} {e : EdgeData}
    (he : e ∈ pixelGraphEdges W H img) :
    ∃ pe ∈ pixelEdges W H,
      e = { source := to_index W pe.base
            target := to_index W (pe.neighbor.apply pe.base)
            weight := pixelWeight img pe } := by
  rw [pixelGraphEdges] at he
  obtain ⟨pe, hpe, he⟩ := List.mem_map.mp he
  exact ⟨pe, hpe, he.symm⟩

theorem pixelGraphEdges_bounds (W H : ℕ) (img : ℕ → ℕ → ℕ) :
    ∀ e ∈ pixelGraphEdges W H img, e.source < W * H ∧ e.target < W * H := by
  intro e he
  obtain ⟨pe, hpe, rfl⟩ := pixelGraphEdges_mem he
  obtain ⟨h1, h2, h3, h4⟩ := pixelEdges_bounds hpe
  exact ⟨to_index_lt h1 h2, to_index_lt h3 h4⟩

theorem pixelGraphEdges_weight_isSome (W H : ℕ) (img : ℕ → ℕ → ℕ) :
    ∀ e ∈ pixelGraphEdges W H img, ∃ q, e.weight = some q := by
  intro e he
  obtain ⟨pe, hpe, rfl⟩ := pixelGraphEdges_mem he
  exact ⟨_, rfl⟩

/-! ## Regrouping lemmas -/

theorem regroupAux_length (W : ℕ) :
    ∀ (ps : List (ℕ × ℕ)) (acc : List (List PixelCoordinate)),
      (regroupAux W acc ps).length = acc.length := by
  intro ps
  induction ps with
  | nil => intro acc; rfl
  | cons p ps ih =>
    intro acc
    obtain ⟨i, c⟩ := p
    rw [regroupAux, ih]
    simp

theorem regroupAux_getElem (W : ℕ) :
    ∀ (ps : List (ℕ × ℕ)) (acc : List (List PixelCoordinate)) (j : ℕ)
      (g : List PixelCoordinate), acc[j]? = some g →
      (regroupAux W acc ps)[j]? =
        some (g ++ (ps.filter fun p => p.2 = j).map
          fun p => from_index W p.1) := by
  intro ps
  induction ps with
  | nil =>
    intro acc j g hg
    simp [regroupAux, hg]
  | cons p ps ih =>
    intro acc j g hg
    obtain ⟨i, c⟩ := p
    have hjlen : j < acc.length := (List.getElem?_eq_some.mp hg).1
    rw [regroupAux]
    by_cases hcj : c = j
    · subst hcj
      have hset : (acc.set c (acc.getD c [] ++ [from_index W i]))[c]? =
          some (g ++ [from_index W i]) := by
        rw [List.getElem?_set_self hjlen, List.getD_eq_getElem?_getD, hg]
        rfl
      rw [ih _ c (g ++ [from_index W i]) hset]
      have hfil : ((i, c) :: ps).filter (fun p => p.2 = c) =
          (i, c) :: ps.filter (fun p => p.2 = c) := by
        rw [List.filter_cons, if_pos (by simp)]
      rw [hfil]
      simp
    · have hset : (acc.set c (acc.getD c [] ++ [from_index W i]))[j]? =
          some g := by
        rw [List.getElem?_set_ne hcj]
        exact hg
      rw [ih _ j g hset]
      have hfil : ((i, c) :: ps).filter (fun p => p.2 = j) =
          ps.filter (fun p => p.2 = j) := by
        rw [List.filter_cons, if_neg (by simp [hcj])]
      rw [hfil]

theorem regroup_length {W m : ℕ} {nc : List ℕ} :
    (regroup W m nc).length = m := by
  rw [regroup, regroupAux_length]
  simp

theorem regroup_getElem {W m : ℕ} {nc : List ℕ} {j : ℕ} (hj : j < m) :
    (regroup W m nc)[j]? =
      some ((nc.enum.filter fun p => p.2 = j).map
        fun p => from_index W p.1) := by
  rw [regroup, regroupAux_getElem W nc.enum (List.replicate m []) j []]
  · simp
  · simp [List.getElem?_replicate, hj]

theorem enum_map_range {g : ℕ → ℕ} {n : ℕ} :
    ((List.range n).map g).enum = (List.range n).map fun i => (i, g i) := by
  apply List.ext_getElem?
  intro i
  rw [List.getElem?_enum, List.getElem?_map, List.getElem?_map]
  by_cases h : i < n
  · rw [List.getElem?_range h]
    rfl
  · have hnone : (List.range n)[i]? = none := by
      rw [List.getElem?_eq_none]
      simpa using (by omega : n ≤ i)
    rw [hnone]
    rfl

/-! ## Counting helpers for the partition properties -/

theorem sum_ite_bucket (m x : ℕ) (P : Prop) [Decidable P] :
    ((List.range m).map fun j =>
      if P ∧ x = j then (1 : ℕ) else 0).sum =
      if P ∧ x < m then 1 else 0 := by
  induction m with
  | zero => simp
  | succ k ih =>
    rw [List.range_succ, List.map_append, List.sum_append, ih]
    by_cases hP : P
    · by_cases hxk : x < k
      · have h1 : ¬ x = k := by omega
        have h2 : x < k + 1 := by omega
        simp [hP, hxk, h1, h2]
      · by_cases hxk2 : x < k + 1
        · have hxe : x = k := by omega
          simp [hP, hxk, hxk2, hxe]
        · have hxe : ¬ (x = k) := by omega
          simp [hP, hxk, hxk2, hxe]
    · simp [hP]

theorem sum_countP_bucket (l : List ℕ) (q : ℕ → Prop) [DecidablePred q]
    (g : ℕ → ℕ) (m : ℕ) :
    ((List.range m).map fun j =>
      l.countP fun i => decide (q i ∧ g i = j)).sum =
      l.countP fun i => decide (q i ∧ g i < m) := by
  induction l with
  | nil => simp
  | cons a l ih =>
    have hmap : ((List.range m).map fun j =>
        (a :: l).countP fun i => decide (q i ∧ g i = j)) =
        (List.range m).map fun j =>
          (l.countP fun i => decide (q i ∧ g i = j)) +
            (if q a ∧ g a = j then 1 else 0) := by
      apply List.map_congr_left
      intro j _
      rw [List.countP_cons]
      by_cases h : q a ∧ g a = j
      · simp [h]
      · simp [h]
    rw [hmap, List.sum_map_add, ih, sum_ite_bucket, List.countP_cons]
    by_cases h : q a ∧ g a < m
    · simp [h]
    · simp [h]

/-! ## Claim theorems -/

/-- C9: for every image with width `W > 0` and height `H`, `to_index` and
`from_index` are mutually inverse bijections between the in-bounds
coordinates and the dense index range `[0, W*H)`: `to_index` is the
row-major formula `y*W + x`, maps in-bounds coordinates into `[0, W*H)`,
`from_index` inverts it there, and conversely. -/
theorem C9_index_bijection (W H : ℕ) (hW : 0 < W) :
    (∀ p : PixelCoordinate, p.x < W → p.y < H →
      to_index W p = p.y * W + p.x ∧ to_index W p < W * H ∧
        from_index W (to_index W p) = p) ∧
    (∀ i < W * H, to_index W (from_index W i) = i ∧
      (from_index W i).x < W ∧ (from_index W i).y < H) := by
  constructor
  · intro p hx hy
    exact ⟨rfl, to_index_lt hx hy, from_index_to_index hx⟩
  · intro i hi
    exact ⟨to_index_from_index W i, (from_index_lt hW hi).1,
      (from_index_lt hW hi).2⟩

/-- Witness for C9 at the concrete image size 3×2. -/
theorem C9_index_bijection_witness :
    (∀ p : PixelCoordinate, p.x < 3 → p.y < 2 →
      to_index 3 p = p.y * 3 + p.x ∧ to_index 3 p < 3 * 2 ∧
        from_index 3 (to_index 3 p) = p) ∧
    (∀ i < 3 * 2, to_index 3 (from_index 3 i) = i ∧
      (from_index 3 i).x < 3 ∧ (from_index 3 i).y < 2) :=
  C9_index_bijection 3 2 (by decide)

/-- C6: every edge the pixel grid enumerates carries the weight
`abs_diff(intensity(source), intensity(target)) / 255`, an ordinary
(non-NaN) value in `[0, 1]` whenever the intensities are 8-bit. -/
theorem C6_pixel_weights (W H : ℕ) (img : ℕ → ℕ → ℕ)
    (himg : ∀ x y, img x y ≤ 255) :
    ∀ e ∈ pixelGraphEdges W H img, ∃ q : ℚ,
      e.weight = some q ∧
      q = (absDiff (img (from_index W e.source).x (from_index W e.source).y)
            (img (from_index W e.target).x (from_index W e.target).y) : ℚ) / 255 ∧
      0 ≤ q ∧ q ≤ 1 := by
  intro e he
  obtain ⟨pe, hpe, rfl⟩ := pixelGraphEdges_mem he
  obtain ⟨h1, h2, h3, h4⟩ := pixelEdges_bounds hpe
  have hsrc : from_index W (to_index W pe.base) = pe.base :=
    from_index_to_index h1
  have htgt : from_index W (to_index W (pe.neighbor.apply pe.base)) =
      pe.neighbor.apply pe.base := from_index_to_index h3
  have hd : absDiff (img pe.base.x pe.base.y)
      (img (pe.neighbor.apply pe.base).x (pe.neighbor.apply pe.base).y) ≤ 255 := by
    have ha := himg pe.base.x pe.base.y
    have hb := himg (pe.neighbor.apply pe.base).x (pe.neighbor.apply pe.base).y
    rw [absDiff]
    omega
  refine ⟨_, rfl, ?_, ?_, ?_⟩
  · show ((absDiff (img pe.base.x pe.base.y) _ : ℚ) / 255) = _
    rw [hsrc, htgt]
  · positivity
  · rw [div_le_one (by norm_num)]
    calc (absDiff (img pe.base.x pe.base.y)
          (img (pe.neighbor.apply pe.base).x (pe.neighbor.apply pe.base).y) : ℚ)
        ≤ (255 : ℕ) := by exact_mod_cast Nat.cast_le.mpr hd
      _ = 255 := by norm_num

/-- Witness for C6 at the single horizontal edge of a uniform 2×1 image. -/
theorem C6_pixel_weights_witness :
    ∃ q : ℚ, some ((absDiff 7 7 : ℚ) / 255) = some q ∧
      q = (absDiff 7 7 : ℚ) / 255 ∧ 0 ≤ q ∧ q ≤ 1 :=
  C6_pixel_weights 2 1 (fun _ _ => 7) (fun _ _ => by norm_num)
    { source := to_index 2 { x := 0, y := 0 }
      target := to_index 2 (Neighbor.Right.apply { x := 0, y := 0 })
      weight := pixelWeight (fun _ _ => 7)
        { base := { x := 0, y := 0 }, neighbor := .Right } }
    (List.mem_map.mpr ⟨{ base := { x := 0, y := 0 }, neighbor := .Right },
      by decide, rfl⟩)

/-- C2 counterexample: a graph whose only edge has a NaN weight does NOT
abort — a one-element queue is sorted without calling the comparator, and
`NaN > MInt` is false, so the edge merges and `segment` returns a
partition. -/
theorem C2_counterexample :
    segment 2 [{ source := 0, target := 1, weight := none }] 1 =
      some { node_components := [0, 0]
             components := [{ int_diff := 0, node_count := 2 }] } := by
  norm_num [segment, sortEdges, sortInto, insertEdge, cmpWeight, cmpQ,
    runMerges, mergeStep, get_component, initComponents, weightGt,
    mergedComponent, newIntDiff, mergeInto, min_def, max_def,
    List.replicate, List.set, List.range_succ, component_map,
    hereCountBefore, out_components, hereComponent, isHere,
    List.mapM, List.mapM.loop, List.take, List.countP, List.countP.go,
    List.filterMap]

/-- C2 amended: a NaN edge weight aborts the call whenever the edge list
has at least two edges (so the sort must compare the NaN at least once);
with a single NaN edge no comparison happens and the call returns a
partition. -/
theorem C2_amended_nan_aborts (n : ℕ) (es : List EdgeData) (k : ℚ)
    (h2 : 2 ≤ es.length) (hnan : ∃ e ∈ es, e.weight = none) :
    segment n es k = none := by
  rw [segment, sortEdges_none_of_nan h2 hnan]

/-- Witness for the amended C2 on a two-edge list containing a NaN. -/
theorem C2_amended_nan_aborts_witness :
    segment 2 [{ source := 0, target := 1, weight := none },
               { source := 0, target := 1, weight := some 0 }] 1 = none :=
  C2_amended_nan_aborts 2 _ 1 (by norm_num)
    ⟨{ source := 0, target := 1, weight := none }, by simp, rfl⟩

/-- C3: for an edge between distinct roots, `segment`'s loop merges exactly
when `w ≤ MInt = min(Cu.int_diff + k/Cu.n, Cv.int_diff + k/Cv.n)`; on a
merge, `root(u)`'s slot gets `Component{max(du,dv,w), nu+nv}` and
`root(v)` becomes a forward reference to `root(u)`; with `w > MInt` or
equal roots the forest is unchanged. -/
theorem C3_merge_rule (k : ℚ) (comps : List ComponentSlot) (e : EdgeData)
    (c1i c2i : ℕ) (c1 c2 : Component) (w : ℚ)
    (h1 : get_component comps e.source comps.length = some (c1i, c1))
    (h2 : get_component comps e.target comps.length = some (c2i, c2))
    (hw : e.weight = some w) :
    (c1i = c2i → mergeStep k comps e = some comps) ∧
    (c1i ≠ c2i →
      (w ≤ min (c1.int_diff + k / (c1.node_count : ℚ))
               (c2.int_diff + k / (c2.node_count : ℚ)) →
        mergeStep k comps e = some
          ((comps.set c1i (.Here
              { int_diff := max (max c1.int_diff c2.int_diff) w
                node_count := c1.node_count + c2.node_count })).set
            c2i (.There c1i))) ∧
      (¬ w ≤ min (c1.int_diff + k / (c1.node_count : ℚ))
               (c2.int_diff + k / (c2.node_count : ℚ)) →
        mergeStep k comps e = some comps)) := by
  refine ⟨?_, ?_⟩
  · intro heq
    simp only [mergeStep, h1, h2, if_pos heq]
  · intro hne
    constructor
    · intro hle
      have hgt : weightGt e.weight
          (min (c1.int_diff + k / (c1.node_count : ℚ))
               (c2.int_diff + k / (c2.node_count : ℚ))) = false := by
        rw [hw]
        show decide _ = false
        exact decide_eq_false (not_lt.mpr hle)
      simp only [mergeStep, h1, h2, if_neg hne, hgt, Bool.false_eq_true,
        if_false]
      rw [hw]
      rfl
    · intro hgt'
      have hgt : weightGt e.weight
          (min (c1.int_diff + k / (c1.node_count : ℚ))
               (c2.int_diff + k / (c2.node_count : ℚ))) = true := by
        rw [hw]
        show decide _ = true
        exact decide_eq_true (lt_of_not_le hgt')
      simp only [mergeStep, h1, h2, if_neg hne, hgt, if_true]

/-- Witness for C3 on the initial two-node forest with a weight-0 edge. -/
theorem C3_merge_rule_witness :
    ((0 : ℕ) = 1 → mergeStep 1 (initComponents 2)
        { source := 0, target := 1, weight := some 0 } =
        some (initComponents 2)) ∧
    ((0 : ℕ) ≠ 1 →
      ((0 : ℚ) ≤ min ((0 : ℚ) + 1 / ((1 : ℕ) : ℚ)) ((0 : ℚ) + 1 / ((1 : ℕ) : ℚ)) →
        mergeStep 1 (initComponents 2)
            { source := 0, target := 1, weight := some 0 } =
          some (((initComponents 2).set 0 (ComponentSlot.Here
              (Component.mk (max (max (0 : ℚ) 0) 0) (1 + 1)))).set
            1 (ComponentSlot.There 0))) ∧
      (¬ (0 : ℚ) ≤ min ((0 : ℚ) + 1 / ((1 : ℕ) : ℚ)) ((0 : ℚ) + 1 / ((1 : ℕ) : ℚ)) →
        mergeStep 1 (initComponents 2)
            { source := 0, target := 1, weight := some 0 } =
          some (initComponents 2))) :=
  C3_merge_rule 1 (initComponents 2)
    { source := 0, target := 1, weight := some 0 } 0 1
    (Component.mk 0 1) (Component.mk 0 1) 0
    (by simp [get_component, initComponents, List.replicate])
    (by simp [get_component, initComponents, List.replicate]) rfl

/-- C4: `segment` is a pure function of the graph presentation and `k`
(two runs coincide definitionally), and the underlying edge sort is a
stable sort: the sorted queue is a permutation of the enumeration, is
non-decreasing in weight, and each exact-weight class retains the graph's
enumeration order. -/
theorem C4_deterministic_stable_sort (n : ℕ) (k : ℚ)
    (edges l : List EdgeData) (h : sortEdges edges = some l) :
    segment n edges k = segment n edges k ∧
    l.Perm edges ∧ l.Pairwise wle ∧
    ∀ w : ℚ, l.filter (fun x => x.weight = some w) =
      edges.filter (fun x => x.weight = some w) := by
  obtain ⟨hp, hpw, hf⟩ := sortEdges_spec h
  exact ⟨rfl, hp, hpw, hf⟩

/-- Witness for C4 on a two-edge list sorted into weight order. -/
theorem C4_deterministic_stable_sort_witness :
    segment 3 [{ source := 0, target := 1, weight := some 1 },
               { source := 1, target := 2, weight := some 0 }] 1 =
      segment 3 [{ source := 0, target := 1, weight := some 1 },
                 { source := 1, target := 2, weight := some 0 }] 1 ∧
    List.Perm
      [({ source := 1, target := 2, weight := some 0 } : EdgeData),
       { source := 0, target := 1, weight := some 1 }]
      [({ source := 0, target := 1, weight := some 1 } : EdgeData),
       { source := 1, target := 2, weight := some 0 }] ∧
    List.Pairwise wle [{ source := 1, target := 2, weight := some 0 },
                       ({ source := 0, target := 1, weight := some 1 } : EdgeData)] ∧
    ∀ w : ℚ,
      List.filter (fun x => x.weight = some w)
        [({ source := 1, target := 2, weight := some 0 } : EdgeData),
         { source := 0, target := 1, weight := some 1 }] =
      List.filter (fun x => x.weight = some w)
        [({ source := 0, target := 1, weight := some 1 } : EdgeData),
         { source := 1, target := 2, weight := some 0 }] :=
  C4_deterministic_stable_sort 3 1
    [{ source := 0, target := 1, weight := some 1 },
     { source := 1, target := 2, weight := some 0 }]
    [{ source := 1, target := 2, weight := some 0 },
     { source := 0, target := 1, weight := some 1 }]
    (by norm_num [sortEdges, sortInto, insertEdge, cmpWeight, cmpQ])

/-- C8: after running the merge loop over any edge list (so in particular
at every intermediate point of the loop, which is the same loop run on a
prefix), every node's forward chain reaches a root slot in finitely many
steps, all within bounds, and `get_component` succeeds with fuel equal to
the array length. -/
theorem C8_chains_terminate (k : ℚ) (n : ℕ) (edges : List EdgeData)
    (comps : List ComponentSlot)
    (h : runMerges k (initComponents n) edges = some comps) :
    comps.length = n ∧
    ∀ i < n, ∃ r t c, RootIn comps i r t ∧ r < n ∧
      comps[r]? = some (.Here c) ∧
      get_component comps i comps.length = some (r, c) := by
  have hinv := runMerges_inv (segInv_init n) h
  refine ⟨hinv.len, ?_⟩
  intro i hi
  obtain ⟨r, t, hroot, htc⟩ := hinv.reach i hi
  obtain ⟨ch, hh⟩ := hroot.root_here
  have hlt := thereCount_lt_of_here hh
  obtain ⟨c, hget, hr⟩ := get_component_of_rootIn hroot comps.length (by omega)
  have hrn : r < n := by
    have h1 := (List.getElem?_eq_some.mp hr).1
    have h2 := hinv.len
    omega
  exact ⟨r, t, c, hroot, hrn, hr, hget⟩

/-- Witness for C8 after one merge on a two-node graph. -/
theorem C8_chains_terminate_witness :
    ([ComponentSlot.Here { int_diff := 0, node_count := 2 },
      ComponentSlot.There 0] : List ComponentSlot).length = 2 ∧
    ∀ i < 2, ∃ r t c,
      RootIn [ComponentSlot.Here { int_diff := 0, node_count := 2 },
        ComponentSlot.There 0] i r t ∧ r < 2 ∧
      ([ComponentSlot.Here { int_diff := 0, node_count := 2 },
        ComponentSlot.There 0] : List ComponentSlot)[r]? = some (.Here c) ∧
      get_component [ComponentSlot.Here { int_diff := 0, node_count := 2 },
        ComponentSlot.There 0] i 2 = some (r, c) :=
  C8_chains_terminate 1 2 [{ source := 0, target := 1, weight := some 0 }]
    [ComponentSlot.Here { int_diff := 0, node_count := 2 },
     ComponentSlot.There 0]
    (by norm_num [runMerges, mergeStep, get_component, initComponents,
      weightGt, mergedComponent, newIntDiff, mergeInto, min_def, max_def,
      List.replicate, List.set])

theorem out_components_replicate (n : ℕ) :
    out_components (initComponents n) =
      List.replicate n { int_diff := 0, node_count := 1 } := by
  induction n with
  | zero => rfl
  | succ m ih =>
    rw [initComponents, List.replicate_succ, out_components,
      List.filterMap_cons]
    rw [initComponents] at ih
    rw [out_components] at ih
    simp only [hereComponent, ih, List.replicate_succ]

theorem nodeLabel_init {n v : ℕ} (hv : v < n) :
    nodeLabel (initComponents n) v = v := by
  have hget0 : (initComponents n)[v]? =
      some (.Here { int_diff := 0, node_count := 1 }) := by
    simp [initComponents, List.getElem?_replicate, hv]
  have hlen : (initComponents n).length = n := by simp [initComponents]
  obtain ⟨c, hget, hc⟩ := get_component_of_rootIn (.here hget0)
    (initComponents n).length (by omega)
  simp only [nodeLabel, hget]
  rw [hereCountBefore, initComponents, List.take_replicate]
  have hmin : min v n = v := by omega
  rw [hmin]
  have hall : ∀ s ∈ List.replicate v
      (ComponentSlot.Here { int_diff := (0 : ℚ), node_count := 1 }),
      isHere s = true := by
    intro s hs
    rw [List.eq_of_mem_replicate hs]
    rfl
  rw [List.countP_eq_length.mpr hall, List.length_replicate]

theorem segment_nil (n : ℕ) (k : ℚ) :
    segment n [] k = some
      { node_components := List.range n
        components := List.replicate n { int_diff := 0, node_count := 1 } } := by
  obtain ⟨hinv, hseg⟩ :=
    segment_eq_of_runMerges (n := n) (k := k)
      (rfl : sortEdges [] = some [])
      (rfl : runMerges k (initComponents n) [] = some (initComponents n))
  rw [hseg, out_components_replicate]
  have h1 : (List.range n).map (nodeLabel (initComponents n)) =
      List.range n := by
    have hc : ∀ v ∈ List.range n, nodeLabel (initComponents n) v = v :=
      fun v hv => nodeLabel_init (List.mem_range.mp hv)
    rw [List.map_congr_left hc, List.map_id']
  rw [h1]

/-- C7: with an empty edge set, `segment` succeeds and returns one singleton
component per node with `node_components[i] = i`; in particular a 1×1 image
yields exactly one segment holding the single pixel, and an empty image
yields a valid empty result — no failure path exists besides the NaN
check. -/
theorem C7_zero_edges :
    (∀ (n : ℕ) (k : ℚ), segment n [] k = some
      { node_components := List.range n
        components := List.replicate n { int_diff := 0, node_count := 1 } }) ∧
    (∀ (img : ℕ → ℕ → ℕ) (k : ℚ),
      gbis 1 1 img k = some [[{ x := 0, y := 0 }]]) ∧
    (∀ (img : ℕ → ℕ → ℕ) (k : ℚ), gbis 0 0 img k = some []) := by
  refine ⟨segment_nil, ?_, ?_⟩
  · intro img k
    have hpe : pixelGraphEdges 1 1 img = [] := rfl
    have hseg := segment_nil 1 k
    rw [gbis]
    rw [show node_bound 1 1 = 1 from rfl, hpe, hseg]
    norm_num [regroup, regroupAux, List.enum, List.enumFrom, List.replicate,
      List.set, from_index]
  · intro img k
    have hpe : pixelGraphEdges 0 0 img = [] := rfl
    have hseg := segment_nil 0 k
    rw [gbis]
    rw [show node_bound 0 0 = 0 from rfl, hpe, hseg]
    rfl

/-- C5 counterexample: on a 4-node graph with edges
`(1,0,w=0), (0,2,w=11/20), (2,3,w=1)`, scale `k1 = 1` groups nodes 2 and 3
together ({0,1},{2,3}) while the larger scale `k2 = 11/10` separates them
({0,1,2},{3}); the `k2`-segment containing node 2 is therefore not a union
of `k1`-segments, refuting coarsening monotonicity. -/
theorem C5_counterexample :
    (1 : ℚ) < 11 / 10 ∧
    segment 4 [{ source := 1, target := 0, weight := some 0 },
               { source := 0, target := 2, weight := some (11/20) },
               { source := 2, target := 3, weight := some 1 }] 1 =
      some { node_components := [0, 0, 1, 1]
             components := [{ int_diff := 0, node_count := 2 },
                            { int_diff := 1, node_count := 2 }] } ∧
    segment 4 [{ source := 1, target := 0, weight := some 0 },
               { source := 0, target := 2, weight := some (11/20) },
               { source := 2, target := 3, weight := some 1 }] (11/10) =
      some { node_components := [0, 0, 0, 1]
             components := [{ int_diff := 11/20, node_count := 3 },
                            { int_diff := 0, node_count := 1 }] } := by
  refine ⟨by norm_num, ?_, ?_⟩
  · norm_num [segment, sortEdges, sortInto, insertEdge, cmpWeight, cmpQ,
      runMerges, mergeStep, get_component, initComponents, weightGt,
      mergedComponent, newIntDiff, mergeInto, min_def, max_def,
      List.replicate, List.set, List.range_succ, component_map,
      hereCountBefore, out_components, hereComponent, isHere,
      List.mapM, List.mapM.loop, List.take, List.countP, List.countP.go,
      List.filterMap]
  · norm_num [segment, sortEdges, sortInto, insertEdge, cmpWeight, cmpQ,
      runMerges, mergeStep, get_component, initComponents, weightGt,
      mergedComponent, newIntDiff, mergeInto, min_def, max_def,
      List.replicate, List.set, List.range_succ, component_map,
      hereCountBefore, out_components, hereComponent, isHere,
      List.mapM, List.mapM.loop, List.take, List.countP, List.countP.go,
      List.filterMap]

/-- C5 amended: pointwise in a fixed forest state, the merge threshold
`MInt` is monotone in `k`, so any edge that merges under `k1` also merges
under any `k2 ≥ k1` at the same state.  (The global claim — that the whole
`k2`-partition is coarser than the `k1`-partition — fails, because the two
runs diverge after the first extra merge; see the counterexample.) -/
theorem C5_amended_pointwise_monotone (k1 k2 : ℚ) (hk : k1 ≤ k2)
    (comps : List ComponentSlot) (e : EdgeData) (c1i c2i : ℕ)
    (c1 c2 : Component) (w : ℚ)
    (h1 : get_component comps e.source comps.length = some (c1i, c1))
    (h2 : get_component comps e.target comps.length = some (c2i, c2))
    (hne : c1i ≠ c2i) (hw : e.weight = some w)
    (hc1 : 0 < c1.node_count) (hc2 : 0 < c2.node_count)
    (hmint : w ≤ min (c1.int_diff + k1 / (c1.node_count : ℚ))
                     (c2.int_diff + k1 / (c2.node_count : ℚ))) :
    w ≤ min (c1.int_diff + k2 / (c1.node_count : ℚ))
            (c2.int_diff + k2 / (c2.node_count : ℚ)) ∧
    mergeStep k2 comps e = some
      (mergeInto comps c1i c2i (mergedComponent c1 c2 e.weight)) := by
  have hmono : ∀ (d : ℚ) (m : ℕ), 0 < m →
      d + k1 / (m : ℚ) ≤ d + k2 / (m : ℚ) := by
    intro d m hm
    have hmq : (0 : ℚ) < (m : ℚ) := by exact_mod_cast hm
    exact add_le_add_left ((div_le_div_iff_of_pos_right hmq).mpr hk) d
  have hle2 : w ≤ min (c1.int_diff + k2 / (c1.node_count : ℚ))
      (c2.int_diff + k2 / (c2.node_count : ℚ)) :=
    le_trans hmint
      (min_le_min (hmono c1.int_diff c1.node_count hc1)
        (hmono c2.int_diff c2.node_count hc2))
  refine ⟨hle2, ?_⟩
  have hgt : weightGt e.weight
      (min (c1.int_diff + k2 / (c1.node_count : ℚ))
           (c2.int_diff + k2 / (c2.node_count : ℚ))) = false := by
    rw [hw]
    show decide _ = false
    exact decide_eq_false (not_lt.mpr hle2)
  simp only [mergeStep, h1, h2, if_neg hne, hgt, Bool.false_eq_true, if_false]

/-- Witness for the amended C5 at `k1 = 1 ≤ 2 = k2` on the initial
two-node forest. -/
theorem C5_amended_pointwise_monotone_witness :
    (0 : ℚ) ≤ min ((0 : ℚ) + 2 / ((1 : ℕ) : ℚ)) ((0 : ℚ) + 2 / ((1 : ℕ) : ℚ)) ∧
    mergeStep 2 (initComponents 2)
        { source := 0, target := 1, weight := some 0 } =
      some (mergeInto (initComponents 2) 0 1
        (mergedComponent (Component.mk 0 1) (Component.mk 0 1) (some 0))) :=
  C5_amended_pointwise_monotone 1 2 (by norm_num) (initComponents 2)
    { source := 0, target := 1, weight := some 0 } 0 1
    (Component.mk 0 1) (Component.mk 0 1) 0
    (by simp [get_component, initComponents, List.replicate])
    (by simp [get_component, initComponents, List.replicate])
    (by decide) rfl (by decide) (by decide) (by norm_num)

theorem hereCountBefore_inj {comps : List ComponentSlot} {r r' : ℕ}
    {c c' : Component} (hr : comps[r]? = some (.Here c))
    (hr' : comps[r']? = some (.Here c'))
    (h : hereCountBefore comps r = hereCountBefore comps r') : r = r' := by
  rcases lt_trichotomy r r' with hlt | heq | hgt
  · exact absurd h (Nat.ne_of_lt (hereCountBefore_strictMono hlt hr hr'))
  · exact heq
  · exact absurd h.symm (Nat.ne_of_lt (hereCountBefore_strictMono hgt hr' hr))

theorem nodeLabel_eq_iff {n : ℕ} {comps : List ComponentSlot}
    (hinv : SegInv n comps) {v : ℕ} (hv : v < n) {r : ℕ} {c : Component}
    (hr : comps[r]? = some (.Here c)) :
    nodeLabel comps v = hereCountBefore comps r ↔ rootIdx comps v = some r := by
  obtain ⟨rv, cv, hget, hcrv, hlbl, -, -, hridx⟩ := nodeLabel_spec hinv hv
  constructor
  · intro h
    rw [hlbl] at h
    rw [hridx, hereCountBefore_inj hcrv hr h]
  · intro h
    rw [hridx] at h
    simp only [Option.some.injEq] at h
    rw [hlbl, h]

theorem segment_some_inv {n : ℕ} {edges : List EdgeData} {k : ℚ}
    {seg : Segmentation} (h : segment n edges k = some seg) :
    ∃ comps, SegInv n comps ∧
      seg = { node_components := (List.range n).map (nodeLabel comps)
              components := out_components comps } := by
  cases hq : sortEdges edges with
  | none =>
    rw [segment, hq] at h
    cases h
  | some queue =>
    cases hr : runMerges k (initComponents n) queue with
    | none =>
      rw [segment] at h
      simp only [hq, hr] at h
      cases h
    | some comps =>
      obtain ⟨hinv, hseg⟩ := segment_eq_of_runMerges hq hr
      rw [hseg] at h
      simp only [Option.some.injEq] at h
      exact ⟨comps, hinv, h.symm⟩

/-- C10: the two outputs of a successful `segment` call are mutually
consistent: each output component's `node_count` equals the number of
nodes labelled with its id, and the `node_count`s sum to `node_bound`. -/
theorem C10_component_counts (n : ℕ) (edges : List EdgeData) (k : ℚ)
    (seg : Segmentation) (h : segment n edges k = some seg) :
    (∀ c < seg.components.length, ∃ comp, seg.components[c]? = some comp ∧
      comp.node_count = seg.node_components.count c) ∧
    (seg.components.map fun comp => comp.node_count).sum = n := by
  obtain ⟨comps, hinv, rfl⟩ := segment_some_inv h
  have hpart : ∀ c < (out_components comps).length,
      ∃ comp, (out_components comps)[c]? = some comp ∧
        comp.node_count =
          ((List.range n).map (nodeLabel comps)).count c := by
    intro c hc
    obtain ⟨comp, hcomp⟩ : ∃ comp, (out_components comps)[c]? = some comp :=
      ⟨_, List.getElem?_eq_getElem hc⟩
    obtain ⟨r, hrc, hcb⟩ := out_components_surj comps c comp hcomp
    refine ⟨comp, hcomp, ?_⟩
    rw [hinv.count r comp hrc, List.count, List.countP_map]
    apply List.countP_congr
    intro v hv
    have hiff := nodeLabel_eq_iff hinv (List.mem_range.mp hv) hrc
    rw [hcb] at hiff
    simp only [Function.comp, beq_iff_eq, decide_eq_true_eq]
    exact hiff.symm
  refine ⟨hpart, ?_⟩
  set m := (out_components comps).length with hm
  set nc := (List.range n).map (nodeLabel comps) with hnc
  have hout : (out_components comps).map (fun comp => comp.node_count) =
      (List.range m).map (fun c => nc.count c) := by
    apply List.ext_getElem?
    intro j
    by_cases hj : j < m
    · obtain ⟨comp, hcomp, hcnt⟩ := hpart j hj
      rw [List.getElem?_map, hcomp, List.getElem?_map, List.getElem?_range hj]
      simp [hcnt]
    · have h1 : ((out_components comps).map
          (fun comp => comp.node_count))[j]? = none := by
        rw [List.getElem?_eq_none]
        simp only [List.length_map]
        omega
      have h2 : ((List.range m).map (fun c => nc.count c))[j]? = none := by
        rw [List.getElem?_eq_none]
        simp only [List.length_map, List.length_range]
        omega
      rw [h1, h2]
  rw [hout]
  have hbucket := sum_countP_bucket nc (fun _ => True) id m
  have hcongr1 : ((List.range m).map fun c => nc.count c) =
      (List.range m).map fun j => nc.countP fun i => decide (True ∧ id i = j) := by
    apply List.map_congr_left
    intro j _
    rw [List.count]
    apply List.countP_congr
    intro x _
    simp
  rw [hcongr1, hbucket]
  have hall : ∀ x ∈ nc, (fun i => decide (True ∧ id i < m)) x = true := by
    intro x hx
    rw [hnc] at hx
    obtain ⟨v, hv, rfl⟩ := List.mem_map.mp hx
    obtain ⟨-, -, -, -, -, -, hlt, -⟩ :=
      nodeLabel_spec hinv (List.mem_range.mp hv)
    simp only [id, decide_eq_true_eq, true_and]
    exact hlt
  rw [List.countP_eq_length.mpr hall, hnc, List.length_map, List.length_range]

/-- Witness for C10 on a two-node graph after one merge. -/
theorem C10_component_counts_witness :
    (∀ c < ([{ int_diff := (0 : ℚ), node_count := 2 }] : List Component).length,
      ∃ comp,
        ([{ int_diff := (0 : ℚ), node_count := 2 }] : List Component)[c]? =
          some comp ∧
        comp.node_count = ([0, 0] : List ℕ).count c) ∧
    (([{ int_diff := (0 : ℚ), node_count := 2 }] : List Component).map
      fun comp => comp.node_count).sum = 2 :=
  C10_component_counts 2 [{ source := 0, target := 1, weight := some 0 }] 1
    { node_components := [0, 0]
      components := [{ int_diff := 0, node_count := 2 }] }
    (by norm_num [segment, sortEdges, sortInto, insertEdge, cmpWeight, cmpQ,
      runMerges, mergeStep, get_component, initComponents, weightGt,
      mergedComponent, newIntDiff, mergeInto, min_def, max_def,
      List.replicate, List.set, List.range_succ, component_map,
      hereCountBefore, out_components, hereComponent, isHere,
      List.mapM, List.mapM.loop, List.take, List.countP, List.countP.go,
      List.filterMap])

/-! ## The regrouped output is a partition of the image -/

theorem regroup_eq_map_range {W m : ℕ} {nc : List ℕ} :
    regroup W m nc = (List.range m).map fun j =>
      (nc.enum.filter fun pr => pr.2 = j).map fun pr => from_index W pr.1 := by
  apply List.ext_getElem?
  intro j
  by_cases hj : j < m
  · rw [regroup_getElem hj, List.getElem?_map, List.getElem?_range hj]
    rfl
  · have hlen1 : (regroup W m nc).length ≤ j := by
      rw [regroup_length]
      omega
    have hlen2 : (((List.range m).map fun j =>
        (nc.enum.filter fun pr => pr.2 = j).map
          fun pr => from_index W pr.1)).length ≤ j := by
      rw [List.length_map, List.length_range]
      omega
    rw [List.getElem?_eq_none hlen1, List.getElem?_eq_none hlen2]

theorem regroup_partition_count {W H m : ℕ} (g : ℕ → ℕ)
    (hg : ∀ i < W * H, g i < m) (p : PixelCoordinate)
    (hx : p.x < W) (hy : p.y < H) :
    ((regroup W m ((List.range (W * H)).map g)).map
      fun gl => gl.count p).sum = 1 := by
  have hW : 0 < W := by omega
  rw [regroup_eq_map_range, List.map_map]
  have hentry : ∀ j ∈ List.range m,
      ((fun gl => List.count p gl) ∘ fun j =>
        ((((List.range (W * H)).map g).enum.filter
          fun pr => pr.2 = j).map fun pr => from_index W pr.1)) j =
      (List.range (W * H)).countP
        fun i => decide (from_index W i = p ∧ g i = j) := by
    intro j _
    show List.count p (((((List.range (W * H)).map g).enum.filter
        fun pr => pr.2 = j).map fun pr => from_index W pr.1)) = _
    rw [enum_map_range, List.filter_map, List.map_map, List.count,
      List.countP_map, List.countP_filter]
    apply List.countP_congr
    intro i _
    simp [Function.comp]
  rw [List.map_congr_left hentry, sum_countP_bucket]
  have hsimpl : ((List.range (W * H)).countP
      fun i => decide (from_index W i = p ∧ g i < m)) =
      (List.range (W * H)).countP fun i => decide (i = to_index W p) := by
    apply List.countP_congr
    intro i hi
    have hin : i < W * H := List.mem_range.mp hi
    simp only [decide_eq_true_eq]
    constructor
    · rintro ⟨h1, -⟩
      rw [← h1, to_index_from_index]
    · intro h1
      subst h1
      exact ⟨from_index_to_index hx, hg _ hin⟩
  rw [hsimpl, countP_range_decide_eq, if_pos (to_index_lt hx hy)]

theorem regroup_mem_bounds {W H m : ℕ} (g : ℕ → ℕ) :
    ∀ gl ∈ regroup W m ((List.range (W * H)).map g), ∀ p ∈ gl,
      p.x < W ∧ p.y < H := by
  intro gl hgl p hp
  rw [regroup_eq_map_range] at hgl
  obtain ⟨j, hj, rfl⟩ := List.mem_map.mp hgl
  obtain ⟨pr, hpr, rfl⟩ := List.mem_map.mp hp
  have hpr' := (List.mem_filter.mp hpr).1
  rw [enum_map_range] at hpr'
  obtain ⟨i, hi, rfl⟩ := List.mem_map.mp hpr'
  have hin : i < W * H := List.mem_range.mp hi
  have hW : 0 < W := by
    rcases Nat.eq_zero_or_pos W with h0 | hpos
    · subst h0
      simp at hin
    · exact hpos
  exact from_index_lt hW hin

/-- C1: for in-bounds, NaN-free graphs `segment` returns `node_components`
of length `node_bound` with every entry a valid dense component id; and the
coordinate groups `gbis` returns form a complete partition of the image:
every in-bounds pixel coordinate occurs in exactly one group, and groups
contain only in-bounds coordinates. -/
theorem C1_partition :
    (∀ (n : ℕ) (edges : List EdgeData) (k : ℚ),
      (∀ e ∈ edges, e.source < n ∧ e.target < n) →
      (∀ e ∈ edges, ∃ q, e.weight = some q) →
      ∃ seg, segment n edges k = some seg ∧
        seg.node_components.length = n ∧
        ∀ c ∈ seg.node_components, c < seg.components.length) ∧
    (∀ (W H : ℕ) (img : ℕ → ℕ → ℕ) (k : ℚ),
      ∃ groups, gbis W H img k = some groups ∧
        (∀ p : PixelCoordinate, p.x < W → p.y < H →
          (groups.map fun gl => gl.count p).sum = 1) ∧
        (∀ gl ∈ groups, ∀ p ∈ gl, p.x < W ∧ p.y < H)) := by
  constructor
  · intro n edges k hb hw
    obtain ⟨comps, hinv, hseg⟩ := segment_isSome hb hw
    refine ⟨_, hseg, by simp, ?_⟩
    intro c hc
    simp only [List.mem_map] at hc
    obtain ⟨v, hv, rfl⟩ := hc
    obtain ⟨-, -, -, -, -, -, hlt, -⟩ :=
      nodeLabel_spec hinv (List.mem_range.mp hv)
    exact hlt
  · intro W H img k
    obtain ⟨comps, hinv, hseg⟩ :=
      segment_isSome (n := W * H) (k := k)
        (pixelGraphEdges_bounds W H img) (pixelGraphEdges_weight_isSome W H img)
    have hlbl : ∀ i < W * H,
        nodeLabel comps i < (out_components comps).length := by
      intro i hi
      obtain ⟨-, -, -, -, -, -, hlt, -⟩ := nodeLabel_spec hinv hi
      exact hlt
    refine ⟨regroup W (out_components comps).length
      ((List.range (W * H)).map (nodeLabel comps)), ?_, ?_, ?_⟩
    · simp only [gbis, node_bound, hseg]
    · intro p hx hy
      exact regroup_partition_count (nodeLabel comps) hlbl p hx hy
    · exact regroup_mem_bounds (nodeLabel comps)

/-- Witness for C1: the one-node empty graph and the 1×1 image. -/
theorem C1_partition_witness :
    (∃ seg, segment 1 [] 1 = some seg ∧
      seg.node_components.length = 1 ∧
      ∀ c ∈ seg.node_components, c < seg.components.length) ∧
    (∃ groups, gbis 1 1 (fun _ _ => 0) 1 = some groups ∧
      (∀ p : PixelCoordinate, p.x < 1 → p.y < 1 →
        (groups.map fun gl => gl.count p).sum = 1) ∧
      (∀ gl ∈ groups, ∀ p ∈ gl, p.x < 1 ∧ p.y < 1)) :=
  ⟨C1_partition.1 1 [] 1 (by simp) (by simp),
   C1_partition.2 1 1 (fun _ _ => 0) 1⟩

end Tvid
